import Mathlib

/-!
Verification of the gluon-ts `ev` metric-evaluation engine
(`src/gluonts/ev/evaluator.py` and the streaming aggregations exercised by
`test/ev/test_aggregations.py`).

The Python code is shallowly embedded:

* Python `dict` objects (keyed by metric name, preserving insertion order,
  with in-place value replacement on key collision) become association lists
  `List (String × α)` together with `updEntry` / `dictUpdate`.
* Metric objects are heap cells (`MetricObj`) referenced by numeric ids, so
  that the reference structure of a Python object graph — including cyclic
  dependency graphs — is representable.  Python recursion is modelled with
  explicit fuel; `none` plays the role of the interpreter aborting the
  recursion (`RecursionError`).
* `Evaluator.apply` becomes a function over explicit lists of test pairs and
  forecasts; `next()` on an exhausted iterator becomes the `stopIteration`
  error, and `np.stack` on an empty list becomes the `stackError` error.
* The streaming `Sum` / `Mean` aggregations of `gluonts.ev.aggregations`
  (whose module is exercised by the tests but not part of the sources at
  hand) are modelled from the spec over a rank-generic `Tensor` type whose
  cells are `Option ℚ` (`none` is the NaN missing-value sentinel).
-/

namespace GluonTS

/-! ## Ordered dictionaries (Python `dict` semantics) -/

/-- Association list standing for a Python `dict` with `String` keys:
entries are in insertion order, and assigning to an existing key replaces
the value in place without moving the key. -/
abbrev Dict (α : Type) : Type := List (String × α)

/-- The keys of a dictionary, in insertion order. -/
def keysOf {α : Type} (d : Dict α) : List String := d.map Prod.fst

/-- Python `d[k] = v`: replace in place if `k` is already a key, otherwise
append the new entry at the end. -/
def updEntry {α : Type} (d : Dict α) (k : String) (v : α) : Dict α :=
  if k ∈ keysOf d then d.map (fun p => if p.1 = k then (k, v) else p)
  else d ++ [(k, v)]

/-- Python `d.update(src)`: assign every entry of `src` into `d`, in order. -/
def dictUpdate {α : Type} (d src : Dict α) : Dict α :=
  src.foldl (fun acc p => updEntry acc p.1 p.2) d

/-- Python `d[k]` lookup: the first (and, for nodup keys, only) entry
with the given key. -/
def lookup {α : Type} (d : Dict α) (k : String) : Option α :=
  (d.find? (fun p => p.1 == k)).map Prod.snd

/-! ## Metric objects

A `Metric` in the Python code is an object exposing `name`, `dependencies`,
`can_aggregate`, `aggregation_name`, `get(input_data, label, forecast,
latest_metrics_data)` and `get_aggregate(values)`.  We model the object graph
as a heap (a list of `MetricObj`) addressed by numeric ids, so dependency
cycles between objects are expressible. -/

/-- Per-item input data: carries the `item_id` and `start` metadata fields
read by `Evaluator.apply`, plus an opaque payload. -/
structure InputData where
  itemId : Int
  start : Int
  payload : Int
deriving DecidableEq

/-- A metric object.  `deps` are heap ids of the objects in
`metric.dependencies`; `getFn` is `metric.get` (the scratch dictionary of
already-computed current-item values is its last argument); `getAggregateFn`
is `metric.get_aggregate`. -/
structure MetricObj where
  name : String
  deps : List Nat
  can_aggregate : Bool
  aggregation_name : String
  getFn : InputData → Int → Int → Dict Int → Int
  getAggregateFn : List Int → Int

/-- The object a dangling reference dereferences to; its `deps` are empty so
it never contributes dependencies. -/
def defaultMetric : MetricObj :=
  { name := ""
    deps := []
    can_aggregate := false
    aggregation_name := ""
    getFn := fun _ _ _ _ => 0
    getAggregateFn := fun _ => 0 }

instance : Inhabited MetricObj := ⟨defaultMetric⟩

/-- Follow a heap reference. -/
def deref (heap : List MetricObj) (i : Nat) : MetricObj :=
  heap.getD i defaultMetric

/-- The names of the objects a metric's `dependencies` refer to. -/
def depNames (heap : List MetricObj) (m : MetricObj) : List String :=
  m.deps.map (fun j => (deref heap j).name)

/-- The names of the metric objects a list of ids refers to. -/
def namesOf (heap : List MetricObj) (ids : List Nat) : List String :=
  ids.map (fun i => (deref heap i).name)

/-! ## `resolve_dependencies`

```python
def resolve_dependencies(metrics):
    def resolve(metric):
        metrics = {}
        for dep in map(resolve, metric.dependencies):
            metrics.update(dep)
        metrics[metric.name] = metric
        return metrics

    result = {}
    for metric in map(resolve, metrics):
        result.update(metric)
    return result.values()
```

`resolveObj heap fuel i` is `resolve` applied to the object at id `i`, with
`fuel` bounding the recursion depth (Python's recursion limit): `none` is the
`RecursionError` the interpreter raises when `resolve` recurses through a
dependency cycle. -/

/-- Fold `acc.update(f j)` over a list of ids, propagating failure —
the `for dep in map(resolve, ...): ... .update(dep)` loop shape. -/
def mergeClosures (f : Nat → Option (Dict Nat)) : List Nat → Dict Nat → Option (Dict Nat)
  | [], acc => some acc
  | j :: rest, acc =>
    match f j with
    | none => none
    | some c => mergeClosures f rest (dictUpdate acc c)

/-- The inner `resolve` of `resolve_dependencies`, with explicit fuel. -/
def resolveObj (heap : List MetricObj) : Nat → Nat → Option (Dict Nat)
  | 0, _ => none
  | fuel + 1, i =>
    match mergeClosures (fun j => resolveObj heap fuel j) (deref heap i).deps [] with
    | none => none
    | some d => some (updEntry d (deref heap i).name i)

/-- `resolve_dependencies`: resolve every requested metric and merge the
closures into one dictionary (its `.values()` is the returned collection). -/
def resolve_dependencies (heap : List MetricObj) (fuel : Nat) (ms : List Nat) :
    Option (Dict Nat) :=
  mergeClosures (fun j => resolveObj heap fuel j) ms []

/-- `topo_sort_metrics`: the source returns `list(metrics)` unchanged
(`# todo: actually sort`). -/
def topo_sort_metrics (ms : List Nat) : List Nat := ms

/-! ## Specification-side predicates for the resolver claims -/

/-- Every entry's key is the name of the object it references. -/
def KeyIsName (heap : List MetricObj) (d : Dict Nat) : Prop :=
  ∀ p ∈ d, p.1 = (deref heap p.2).name

/-- Dependency-ordered relative to a list of already-available names: each
entry's dependency names are available before it, where an entry makes its
own key available to the entries after it. -/
def OrderedFrom (heap : List MetricObj) : List String → Dict Nat → Prop
  | _, [] => True
  | avail, p :: rest =>
    (∀ dn ∈ depNames heap (deref heap p.2), dn ∈ avail) ∧
    OrderedFrom heap (avail ++ [p.1]) rest

/-- Decidable statement of the claimed topological-order property for a list
of metric ids: every dependency name of the metric at position `t` is the
name of some metric at a position before `t`. -/
def topoOkB (heap : List MetricObj) (l : List Nat) : Bool :=
  (List.range l.length).all (fun t =>
    (depNames heap (deref heap (l.getD t 0))).all (fun dn =>
      ((l.take t).map (fun j => (deref heap j).name)).contains dn))

/-- Decidable cycle-freeness certificate: `ranks` assigns every heap object a
rank strictly greater than the ranks of all its dependencies, which rules out
any dependency cycle among the heap's objects. -/
def acyclicB (heap : List MetricObj) (ranks : List Nat) : Bool :=
  (List.range heap.length).all (fun i =>
    ((deref heap i).deps).all (fun j => ranks.getD j 0 < ranks.getD i 0))

/-- Decidable name-consistency: any two objects of the heap sharing a name
have the same dependency names (the spec treats the name as the metric's
identity).  The default object of dangling references is included. -/
def nameConsistentB (heap : List MetricObj) : Bool :=
  (defaultMetric :: heap).all (fun o1 =>
    (defaultMetric :: heap).all (fun o2 =>
      !(o1.name == o2.name) || decide (depNames heap o1 = depNames heap o2)))

/-- Name-consistency as used by the proofs: dereferencing any two ids with
equal names yields equal dependency-name lists. -/
def NameConsistent (heap : List MetricObj) : Prop :=
  ∀ i j : Nat, (deref heap i).name = (deref heap j).name →
    depNames heap (deref heap i) = depNames heap (deref heap j)

/-- The joint invariant of every dictionary the resolver builds: keys are
deduplicated, every key is its value's name, and every entry's dependency
names occur as earlier keys. -/
def GoodDict (heap : List MetricObj) (d : Dict Nat) : Prop :=
  (keysOf d).Nodup ∧ KeyIsName heap d ∧ OrderedFrom heap [] d

/-- A dictionary is strongly closed when re-resolving any of its member ids
(with any fuel) can only produce keys the dictionary already has. -/
def StronglyClosed (heap : List MetricObj) (d : Dict Nat) : Prop :=
  ∀ p ∈ d, ∀ (f : Nat) (c : Dict Nat), resolveObj heap f p.2 = some c →
    ∀ x ∈ keysOf c, x ∈ keysOf d

/-! ## The `Evaluator` -/

/-- Errors `Evaluator.apply` can surface: `next()` on an exhausted forecast
iterator (`StopIteration`), and `np.stack` applied to an empty list
(`ValueError`). -/
inductive EvalError where
  | stopIteration : EvalError
  | stackError : EvalError
deriving DecidableEq

/-- The state `Evaluator.__init__` builds: the requested metrics split into
non-aggregating and aggregating targets, plus the resolved and (nominally)
topologically sorted list of all required local metrics. -/
structure EvaluatorState where
  localMetricTargets : List Nat
  aggregationTargets : List Nat
  localMetrics : List Nat
deriving DecidableEq

/-- `Evaluator.__init__`: split the requested metrics by `can_aggregate` and
memoize the resolved dependency closure.  `none` when dependency resolution
itself aborts (`RecursionError` on a cycle). -/
def mkEvaluator (heap : List MetricObj) (fuel : Nat) (ms : List Nat) :
    Option EvaluatorState :=
  match resolve_dependencies heap fuel ms with
  | none => none
  | some out =>
    some
      { localMetricTargets := ms.filter (fun i => !(deref heap i).can_aggregate)
        aggregationTargets := ms.filter (fun i => (deref heap i).can_aggregate)
        localMetrics := topo_sort_metrics (out.map Prod.snd) }

/-- The dict comprehension `{metric.name: [] for metric in local_metrics}`. -/
def initData (heap : List MetricObj) (lms : List Nat) : Dict (List Int) :=
  lms.foldl (fun d m => updEntry d (deref heap m).name []) []

/-- `metrics_data[metric.name].append(value)`. -/
def appendData (d : Dict (List Int)) (k : String) (v : Int) : Dict (List Int) :=
  d.map (fun p => if p.1 = k then (p.1, p.2 ++ [v]) else p)

/-- The inner metric loop of `Evaluator.apply` for one dataset item: for each
metric of `local_metrics` in order, compute its value passing the
`latest_metrics_data` scratch dict, append the value to `metrics_data`, and
record it in the scratch dict.  Returns the updated `metrics_data` and the
final scratch dict. -/
def itemLoop (heap : List MetricObj) (inp : InputData) (lbl fc : Int) :
    List Nat → Dict Int → Dict (List Int) → Dict (List Int) × Dict Int
  | [], scratch, data => (data, scratch)
  | m :: rest, scratch, data =>
    itemLoop heap inp lbl fc rest
      (updEntry scratch (deref heap m).name ((deref heap m).getFn inp lbl fc scratch))
      (appendData data (deref heap m).name ((deref heap m).getFn inp lbl fc scratch))

/-- The scratch dict (`latest_metrics_data`) after running a list of metrics,
starting from a given scratch state. -/
def scratchAfter (heap : List MetricObj) (inp : InputData) (lbl fc : Int) :
    List Nat → Dict Int → Dict Int
  | [], scratch => scratch
  | m :: rest, scratch =>
    scratchAfter heap inp lbl fc rest
      (updEntry scratch (deref heap m).name ((deref heap m).getFn inp lbl fc scratch))

/-- The values the metric loop computes, in metric order, starting from a
given scratch state. -/
def itemValues (heap : List MetricObj) (inp : InputData) (lbl fc : Int) :
    List Nat → Dict Int → List Int
  | [], _ => []
  | m :: rest, scratch =>
    (deref heap m).getFn inp lbl fc scratch ::
      itemValues heap inp lbl fc rest
        (updEntry scratch (deref heap m).name ((deref heap m).getFn inp lbl fc scratch))

/-- The dataset loop of `Evaluator.apply`: iterate `range(len(dataset))`,
taking the next test pair and the next forecast each round; an exhausted
forecast iterator raises `StopIteration`. -/
def applyLoop (heap : List MetricObj) (lms : List Nat) :
    List (InputData × Int) → List Int → Dict (List Int) →
    Except EvalError (Dict (List Int))
  | [], _, data => Except.ok data
  | _ :: _, [], _ => Except.error EvalError.stopIteration
  | (inp, lbl) :: restPairs, fc :: restFc, data =>
    applyLoop heap lms restPairs restFc (itemLoop heap inp lbl fc lms [] data).1

/-- `np.stack(value, axis=0)`: fails on an empty list of arrays, otherwise
stacks the per-item values (kept as the list of collected values). -/
def npStack (l : List Int) : Except EvalError (List Int) :=
  if l.isEmpty then Except.error EvalError.stackError else Except.ok l

/-- The dict comprehension `{key: np.stack(value) for key, value in
metrics_data.items()}`, propagating the `np.stack` failure. -/
def stackData : Dict (List Int) → Except EvalError (Dict (List Int))
  | [] => Except.ok []
  | (k, v) :: rest =>
    match npStack v, stackData rest with
    | Except.error e, _ => Except.error e
    | _, Except.error e => Except.error e
    | Except.ok sv, Except.ok srest => Except.ok ((k, sv) :: srest)

/-- The `LocalMetrics` result table. -/
structure LocalMetricsModel where
  data : Dict (List Int)
  target_metrics : List String
  metricsIds : List Nat
  itemIds : List Int
  starts : List Int
deriving DecidableEq

/-- The tail of `Evaluator.apply`: stack the collected `metrics_data` and
build the `LocalMetrics` result table. -/
def stackedTable (heap : List MetricObj) (ev : EvaluatorState)
    (tps : List (InputData × Int)) (data : Dict (List Int)) :
    Except EvalError LocalMetricsModel :=
  match stackData data with
  | Except.error e => Except.error e
  | Except.ok dataNp =>
    Except.ok
      { data := dataNp
        target_metrics := ev.localMetricTargets.map (fun i => (deref heap i).name)
        metricsIds := ev.localMetrics ++ ev.aggregationTargets
        itemIds := tps.map (fun p => p.1.itemId)
        starts := tps.map (fun p => p.1.start) }

/-- `Evaluator.apply`. -/
def Evaluator.apply (heap : List MetricObj) (ev : EvaluatorState)
    (tps : List (InputData × Int)) (fcs : List Int) :
    Except EvalError LocalMetricsModel :=
  match applyLoop heap ev.localMetrics tps fcs (initData heap ev.localMetrics) with
  | Except.error e => Except.error e
  | Except.ok data => stackedTable heap ev tps data

/-- `self.data[metric.name]` (the key is always present for tables built by
`Evaluator.apply`, see the keys lemmas). -/
def lookupArr (d : Dict (List Int)) (k : String) : List Int :=
  (lookup d k).getD []

/-- `LocalMetrics.get`: `keyfilter(lambda name: name in self.target_metrics,
self.data)`. -/
def LocalMetricsModel.get (lm : LocalMetricsModel) : Dict (List Int) :=
  lm.data.filter (fun p => lm.target_metrics.contains p.1)

/-- `LocalMetrics.aggregate`: one pass over `self.metrics`, assigning
`aggregations[metric.aggregation_name] = metric.get_aggregate(self.data[metric.name])`
for every metric with `can_aggregate`. -/
def LocalMetricsModel.aggregate (heap : List MetricObj) (lm : LocalMetricsModel) :
    Dict Int :=
  lm.metricsIds.foldl
    (fun acc i =>
      if (deref heap i).can_aggregate then
        updEntry acc (deref heap i).aggregation_name
          ((deref heap i).getAggregateFn (lookupArr lm.data (deref heap i).name))
      else acc)
    []

/-! ## Concrete instances used by counterexamples and witnesses -/

/-- The evaluator state `Evaluator.__init__` builds for `mseHeap`, `[0]`. -/
def mseEvaluator : EvaluatorState :=
  { localMetricTargets := [0], aggregationTargets := [], localMetrics := [0] }

/-- The evaluator state built from an empty metric collection. -/
def emptyEvaluator : EvaluatorState :=
  { localMetricTargets := [], aggregationTargets := [], localMetrics := [] }

/-- The evaluator state `Evaluator.__init__` builds for `aggDepHeap`, `[1]`:
the aggregating dependency `a` is pulled into `local_metrics` without being
an aggregation target. -/
def aggDepEvaluator : EvaluatorState :=
  { localMetricTargets := [1], aggregationTargets := [], localMetrics := [0, 1] }

/-- A heap holding a single metric that lists itself as a dependency. -/
def selfDepHeap : List MetricObj :=
  [{ name := "m"
     deps := [0]
     can_aggregate := false
     aggregation_name := ""
     getFn := fun _ _ _ _ => 0
     getAggregateFn := fun _ => 0 }]

/-- Cycle-free heap with two distinct metric objects sharing the name `m`:
object 0 has no dependencies, object 2 (also named `m`) depends on object 1
(named `d`). -/
def dupNameHeap : List MetricObj :=
  [{ name := "m"
     deps := []
     can_aggregate := false
     aggregation_name := ""
     getFn := fun _ _ _ _ => 0
     getAggregateFn := fun _ => 0 },
   { name := "d"
     deps := []
     can_aggregate := false
     aggregation_name := ""
     getFn := fun _ _ _ _ => 0
     getAggregateFn := fun _ => 0 },
   { name := "m"
     deps := [1]
     can_aggregate := false
     aggregation_name := ""
     getFn := fun _ _ _ _ => 0
     getAggregateFn := fun _ => 0 }]

/-- A heap with a single direct (non-aggregating) squared-error metric. -/
def mseHeap : List MetricObj :=
  [{ name := "mse"
     deps := []
     can_aggregate := false
     aggregation_name := ""
     getFn := fun _ lbl fc _ => (lbl - fc) * (lbl - fc)
     getAggregateFn := fun _ => 0 }]

/-- A heap where object 0 (`a`) is an aggregating metric and object 1 (`d`)
is a non-aggregating metric depending on `a` and reading its current-item
value from the scratch dict. -/
def aggDepHeap : List MetricObj :=
  [{ name := "a"
     deps := []
     can_aggregate := true
     aggregation_name := "agg_a"
     getFn := fun _ _ _ _ => 1
     getAggregateFn := fun l => l.headD 0 },
   { name := "d"
     deps := [0]
     can_aggregate := false
     aggregation_name := ""
     getFn := fun _ _ _ scratch => (lookup scratch "a").getD 0 + 1
     getAggregateFn := fun _ => 0 }]

/-! ## Tensors and the streaming aggregations

The module `gluonts.ev.aggregations` is exercised by
`test/ev/test_aggregations.py` but its source is not among the files at hand,
so `Sum` and `Mean` below are modelled from the spec (section 4.1).  An
n-dimensional numpy array with possible NaN entries is a rank-generic
`Tensor (Option ℚ)`: `none` is the NaN missing-value sentinel.  Batches are
concatenated along the first axis (`np.concatenate` of the value stream). -/

/-- Rank-generic tensor: a scalar cell or a list of sub-tensors. -/
inductive Tensor (α : Type) where
  | scalar : α → Tensor α
  | dim : List (Tensor α) → Tensor α

mutual

/-- Apply a function to every cell. -/
def mapT {α β : Type} (f : α → β) : Tensor α → Tensor β
  | .scalar a => .scalar (f a)
  | .dim ts => .dim (mapTList f ts)

def mapTList {α β : Type} (f : α → β) : List (Tensor α) → List (Tensor β)
  | [] => []
  | t :: ts => mapT f t :: mapTList f ts

end

mutual

/-- Elementwise combination of two same-shaped tensors (shape mismatches
collapse to the empty tensor, which the theorems rule out by hypothesis). -/
def ezip {α β γ : Type} (f : α → β → γ) : Tensor α → Tensor β → Tensor γ
  | .scalar a, .scalar b => .scalar (f a b)
  | .dim as2, .dim bs2 => .dim (ezipList f as2 bs2)
  | _, _ => .dim []

def ezipList {α β γ : Type} (f : α → β → γ) :
    List (Tensor α) → List (Tensor β) → List (Tensor γ)
  | a :: as2, b :: bs2 => ezip f a b :: ezipList f as2 bs2
  | _, _ => []

end

mutual

/-- `t` is a well-formed array of the given shape. -/
def hasShape {α : Type} : Tensor α → List Nat → Bool
  | .scalar _, [] => true
  | .dim ts, n :: s => ts.length == n && hasShapeList ts s
  | _, _ => false

def hasShapeList {α : Type} : List (Tensor α) → List Nat → Bool
  | [], _ => true
  | t :: ts, s => hasShape t s && hasShapeList ts s

end

mutual

/-- All cells, in row-major order (`array.flatten()`). -/
def flattenT {α : Type} : Tensor α → List α
  | .scalar a => [a]
  | .dim ts => flattenTList ts

def flattenTList {α : Type} : List (Tensor α) → List α
  | [] => []
  | t :: ts => flattenT t ++ flattenTList ts

end

/-- The sub-tensors along the first axis. -/
def childrenOf {α : Type} : Tensor α → List (Tensor α)
  | .scalar _ => []
  | .dim ts => ts

/-- The rows of a list of tensors, concatenated. -/
def concatChildren {α : Type} : List (Tensor α) → List (Tensor α)
  | [] => []
  | b :: bs => childrenOf b ++ concatChildren bs

/-- `np.concatenate(batches)`: concatenation along the first axis. -/
def concatT {α : Type} (bs : List (Tensor α)) : Tensor α :=
  .dim (concatChildren bs)

/-- Transpose a nonempty list of same-shaped rows into a tensor of cell
lists: the output cell at a position is the list of the rows' cells at that
position, in row order. -/
def slices0 {α : Type} : List (Tensor α) → Tensor (List α)
  | [] => .dim []
  | [r] => mapT (fun a => [a]) r
  | r :: r2 :: rest => ezip List.cons r (slices0 (r2 :: rest))

mutual

/-- The reduction slices of a tensor along the given axis: each output cell
holds the list of input cells it aggregates. -/
def slicesAxis {α : Type} : Nat → Tensor α → Tensor (List α)
  | 0, .dim rows => slices0 rows
  | k + 1, .dim rows => .dim (slicesAxisList k rows)
  | _, .scalar _ => .dim []

def slicesAxisList {α : Type} : Nat → List (Tensor α) → List (Tensor (List α))
  | _, [] => []
  | k, t :: ts => slicesAxis k t :: slicesAxisList k ts

end

/-- `np.nansum` of one output cell: missing entries contribute 0, and an
all-missing cell sums to 0 (not NaN), as numpy does. -/
def nsumCell (l : List (Option ℚ)) : ℚ :=
  l.foldr (fun x acc => x.getD 0 + acc) 0

/-- The number of non-missing contributions to one output cell. -/
def ncountCell (l : List (Option ℚ)) : Nat :=
  l.foldr (fun x acc => if x.isSome then acc + 1 else acc) 0

/-- `np.nanmean` of one output cell: a cell with zero non-missing
contributions is missing (NaN), not zero. -/
def nmeanCell (l : List (Option ℚ)) : Option ℚ :=
  if ncountCell l = 0 then none else some (nsumCell l / (ncountCell l : ℚ))

/-- Running sum and running count of one output cell. -/
def scCell (l : List (Option ℚ)) : ℚ × Nat :=
  (nsumCell l, ncountCell l)

/-- Divide a running sum by a running count; a zero count gives a missing
result rather than a division by zero. -/
def divCell (p : ℚ × Nat) : Option ℚ :=
  if p.2 = 0 then none else some (p.1 / (p.2 : ℚ))

/-- `np.nansum(t, axis=k)`. -/
def nansumAxis (k : Nat) (t : Tensor (Option ℚ)) : Tensor ℚ :=
  mapT nsumCell (slicesAxis k t)

/-- `np.nanmean(t, axis=k)`. -/
def nanmeanAxis (k : Nat) (t : Tensor (Option ℚ)) : Tensor (Option ℚ) :=
  mapT nmeanCell (slicesAxis k t)

/-- Elementwise running sums and counts along axis `k`. -/
def sumCountAxis (k : Nat) (t : Tensor (Option ℚ)) : Tensor (ℚ × Nat) :=
  mapT scCell (slicesAxis k t)

/-- Modelled from the spec: the running state of the streaming `Sum`
aggregation (`gluonts.ev.aggregations.Sum`, not among the sources at hand).
With axis "none" it keeps the running total over all flattened batches; with
axis 0 the elementwise sum over the batches; with a higher axis the
per-batch reductions, concatenated on `get`. -/
inductive SumState where
  | flat : ℚ → SumState
  | acc0 : Option (Tensor ℚ) → SumState
  | parts : List (Tensor ℚ) → SumState

/-- Modelled from the spec: the streaming `Sum` aggregation. -/
structure Sum where
  axis : Option Nat
  state : SumState

/-- `Sum(axis=a)`. -/
def Sum.new : Option Nat → Sum
  | none => ⟨none, SumState.flat 0⟩
  | some 0 => ⟨some 0, SumState.acc0 none⟩
  | some (k + 1) => ⟨some (k + 1), SumState.parts []⟩

/-- Modelled from the spec: `Sum.step(values)` folds one batch into the
running state, treating missing entries as 0 contribution. -/
def Sum.step (s : Sum) (values : Tensor (Option ℚ)) : Sum :=
  match s.axis, s.state with
  | none, SumState.flat q =>
    ⟨none, SumState.flat (q + nsumCell (flattenT values))⟩
  | some 0, SumState.acc0 none =>
    ⟨some 0, SumState.acc0 (some (nansumAxis 0 values))⟩
  | some 0, SumState.acc0 (some t) =>
    ⟨some 0, SumState.acc0 (some (ezip (fun x y => x + y) t (nansumAxis 0 values)))⟩
  | some (k + 1), SumState.parts l =>
    ⟨some (k + 1), SumState.parts (l ++ [nansumAxis (k + 1) values])⟩
  | a, st => ⟨a, st⟩

/-- Modelled from the spec: `Sum.get()` returns the accumulated reduction
(a scalar tensor when the axis is "none"). -/
def Sum.get (s : Sum) : Tensor ℚ :=
  match s.state with
  | SumState.flat q => Tensor.scalar q
  | SumState.acc0 t => t.getD (Tensor.dim [])
  | SumState.parts l => Tensor.dim (concatChildren l)

/-- Stream a list of batches through a fresh `Sum` and read the result. -/
def runSum (axis : Option Nat) (bs : List (Tensor (Option ℚ))) : Tensor ℚ :=
  (bs.foldl Sum.step (Sum.new axis)).get

/-- Modelled from the spec: the running state of the streaming `Mean`
aggregation — an elementwise running sum together with an elementwise count
of the non-missing contributions; `get` divides, and a zero-count cell
yields a missing result. -/
inductive MeanState where
  | flat : ℚ × Nat → MeanState
  | acc0 : Option (Tensor (ℚ × Nat)) → MeanState
  | parts : List (Tensor (ℚ × Nat)) → MeanState

/-- Modelled from the spec: the streaming `Mean` aggregation. -/
structure Mean where
  axis : Option Nat
  state : MeanState

/-- `Mean(axis=a)`. -/
def Mean.new : Option Nat → Mean
  | none => ⟨none, MeanState.flat (0, 0)⟩
  | some 0 => ⟨some 0, MeanState.acc0 none⟩
  | some (k + 1) => ⟨some (k + 1), MeanState.parts []⟩

/-- Modelled from the spec: `Mean.step(values)` folds one batch into the
running sums and counts; missing entries contribute to neither. -/
def Mean.step (s : Mean) (values : Tensor (Option ℚ)) : Mean :=
  match s.axis, s.state with
  | none, MeanState.flat p =>
    ⟨none, MeanState.flat (p.1 + nsumCell (flattenT values),
      p.2 + ncountCell (flattenT values))⟩
  | some 0, MeanState.acc0 none =>
    ⟨some 0, MeanState.acc0 (some (sumCountAxis 0 values))⟩
  | some 0, MeanState.acc0 (some t) =>
    ⟨some 0, MeanState.acc0 (some (ezip
      (fun p1 p2 => (p1.1 + p2.1, p1.2 + p2.2)) t (sumCountAxis 0 values)))⟩
  | some (k + 1), MeanState.parts l =>
    ⟨some (k + 1), MeanState.parts (l ++ [sumCountAxis (k + 1) values])⟩
  | a, st => ⟨a, st⟩

/-- Modelled from the spec: `Mean.get()` divides the running sums by the
running counts elementwise; a zero-count cell propagates the missing
sentinel instead of dividing by zero. -/
def Mean.get (s : Mean) : Tensor (Option ℚ) :=
  match s.state with
  | MeanState.flat p => Tensor.scalar (divCell p)
  | MeanState.acc0 t => mapT divCell (t.getD (Tensor.dim []))
  | MeanState.parts l => mapT divCell (Tensor.dim (concatChildren l))

/-- Stream a list of batches through a fresh `Mean` and read the result. -/
def runMean (axis : Option Nat) (bs : List (Tensor (Option ℚ))) : Tensor (Option ℚ) :=
  (bs.foldl Mean.step (Mean.new axis)).get

end GluonTS

namespace GluonTS

/-! # Theorems -/

/-! ## Dictionary lemmas -/

@[simp] theorem keysOf_nil {α : Type} : keysOf ([] : Dict α) = [] := rfl

@[simp] theorem keysOf_cons {α : Type} (p : String × α) (d : Dict α) :
    keysOf (p :: d) = p.1 :: keysOf d := rfl

@[simp] theorem keysOf_append {α : Type} (d1 d2 : Dict α) :
    keysOf (d1 ++ d2) = keysOf d1 ++ keysOf d2 :=
  List.map_append _ _ _

@[simp] theorem updEntry_nil {α : Type} (k : String) (v : α) :
    updEntry ([] : Dict α) k v = [(k, v)] := by
  simp [updEntry]

theorem map_updFn_id {α : Type} {d : Dict α} {k : String} (v : α)
    (h : k ∉ keysOf d) :
    d.map (fun p => if p.1 = k then (k, v) else p) = d := by
  induction d with
  | nil => rfl
  | cons p rest ih =>
    simp only [keysOf_cons, List.mem_cons] at h
    push_neg at h
    have hpk : ¬(p.1 = k) := fun hc => h.1 hc.symm
    simp [List.map_cons, hpk, ih h.2]

theorem updEntry_cons_ne {α : Type} {p : String × α} {k : String}
    (d : Dict α) (v : α) (hp : p.1 ≠ k) :
    updEntry (p :: d) k v = p :: updEntry d k v := by
  by_cases h : k ∈ keysOf d
  · have hmem : k ∈ keysOf (p :: d) := by simp [h]
    simp [updEntry, hmem, h, if_neg hp]
  · have hmem : k ∉ keysOf (p :: d) := by
      simp only [keysOf_cons, List.mem_cons]
      push_neg
      exact ⟨fun hc => hp hc.symm, h⟩
    rw [updEntry, if_neg hmem, updEntry, if_neg h]
    simp

theorem updEntry_cons_eq {α : Type} {p : String × α} {k : String}
    (d : Dict α) (v : α) (hp : p.1 = k) (hnd : k ∉ keysOf d) :
    updEntry (p :: d) k v = (k, v) :: d := by
  have hmem : k ∈ keysOf (p :: d) := by simp [hp.symm]
  simp [updEntry, hmem, hp, map_updFn_id v hnd]

theorem keysOf_updEntry {α : Type} (d : Dict α) (k : String) (v : α) :
    keysOf (updEntry d k v) = if k ∈ keysOf d then keysOf d else keysOf d ++ [k] := by
  by_cases h : k ∈ keysOf d
  · rw [updEntry, if_pos h, if_pos h]
    simp only [keysOf, List.map_map]
    apply List.map_congr_left
    intro p _
    by_cases hp : p.1 = k
    · simp [hp]
    · simp [hp]
  · rw [updEntry, if_neg h, if_neg h]
    simp [keysOf]

theorem mem_keysOf_updEntry {α : Type} {d : Dict α} {k a : String} {v : α} :
    a ∈ keysOf (updEntry d k v) ↔ a ∈ keysOf d ∨ a = k := by
  rw [keysOf_updEntry]
  by_cases h : k ∈ keysOf d
  · rw [if_pos h]
    constructor
    · exact Or.inl
    · rintro (ha | rfl)
      · exact ha
      · exact h
  · rw [if_neg h]
    simp

theorem nodup_keysOf_updEntry {α : Type} {d : Dict α} (k : String) (v : α)
    (h : (keysOf d).Nodup) : (keysOf (updEntry d k v)).Nodup := by
  rw [keysOf_updEntry]
  by_cases hk : k ∈ keysOf d
  · rwa [if_pos hk]
  · rw [if_neg hk]
    simpa [List.nodup_append] using ⟨h, fun hc => hk hc⟩

theorem mem_updEntry {α : Type} {d : Dict α} {k : String} {v : α} {q : String × α}
    (hq : q ∈ updEntry d k v) : q ∈ d ∨ q = (k, v) := by
  by_cases h : k ∈ keysOf d
  · rw [updEntry, if_pos h] at hq
    rcases List.mem_map.1 hq with ⟨p, hp, hpq⟩
    by_cases hpk : p.1 = k
    · right
      rw [if_pos hpk] at hpq
      exact hpq.symm
    · left
      rw [if_neg hpk] at hpq
      exact hpq ▸ hp
  · rw [updEntry, if_neg h] at hq
    rcases List.mem_append.1 hq with hq | hq
    · exact Or.inl hq
    · exact Or.inr (List.mem_singleton.1 hq)

/-! ## Name consistency -/

theorem deref_mem (heap : List MetricObj) (i : Nat) :
    deref heap i ∈ defaultMetric :: heap := by
  unfold deref
  by_cases h : i < heap.length
  · rw [List.getD_eq_getElem heap defaultMetric h]
    exact List.mem_cons_of_mem _ (List.getElem_mem h)
  · rw [List.getD_eq_default heap defaultMetric (Nat.le_of_not_lt h)]
    exact List.mem_cons_self _ _

theorem nameConsistent_of_b {heap : List MetricObj}
    (h : nameConsistentB heap = true) : NameConsistent heap := by
  intro i j hname
  have h1 := deref_mem heap i
  have h2 := deref_mem heap j
  rw [nameConsistentB, List.all_eq_true] at h
  have := (List.all_eq_true.1 (h _ h1)) _ h2
  rcases Bool.or_eq_true_iff.1 this with hne | heq
  · exfalso
    rw [Bool.not_eq_eq_eq_not, Bool.not_true, beq_eq_false_iff_ne] at hne
    exact hne hname
  · exact of_decide_eq_true heq

/-! ## Ordering invariants of the resolver -/

theorem orderedFrom_mono (heap : List MetricObj) :
    ∀ (d : Dict Nat) (a1 a2 : List String), (∀ x ∈ a1, x ∈ a2) →
      OrderedFrom heap a1 d → OrderedFrom heap a2 d := by
  intro d
  induction d with
  | nil => intro a1 a2 _ _; trivial
  | cons p rest ih =>
    intro a1 a2 hsub hord
    refine ⟨fun dn hdn => hsub _ (hord.1 dn hdn), ih _ _ ?_ hord.2⟩
    intro x hx
    rcases List.mem_append.1 hx with hx | hx
    · exact List.mem_append_left _ (hsub _ hx)
    · exact List.mem_append_right _ hx

theorem orderedFrom_append_single (heap : List MetricObj) :
    ∀ (d : Dict Nat) (avail : List String) (k : String) (v : Nat),
      OrderedFrom heap avail d →
      (∀ dn ∈ depNames heap (deref heap v), dn ∈ avail ∨ dn ∈ keysOf d) →
      OrderedFrom heap avail (d ++ [(k, v)]) := by
  intro d
  induction d with
  | nil =>
    intro avail k v _ hdep
    refine ⟨fun dn hdn => ?_, trivial⟩
    rcases hdep dn hdn with h | h
    · exact h
    · simp at h
  | cons p rest ih =>
    intro avail k v hord hdep
    refine ⟨hord.1, ih _ k v hord.2 ?_⟩
    intro dn hdn
    rcases hdep dn hdn with h | h
    · exact Or.inl (List.mem_append_left _ h)
    · rcases List.mem_cons.1 h with h | h
      · exact Or.inl (List.mem_append_right _ (List.mem_singleton.2 h))
      · exact Or.inr h

theorem orderedFrom_updEntry (heap : List MetricObj) (hnc : NameConsistent heap) :
    ∀ (d : Dict Nat) (avail : List String) (k : String) (v : Nat),
      OrderedFrom heap avail d → (keysOf d).Nodup → KeyIsName heap d →
      k = (deref heap v).name →
      (∀ dn ∈ depNames heap (deref heap v), dn ∈ avail ∨ dn ∈ keysOf d) →
      OrderedFrom heap avail (updEntry d k v) := by
  intro d
  induction d with
  | nil =>
    intro avail k v _ _ _ _ hdep
    rw [updEntry_nil]
    refine ⟨fun dn hdn => ?_, trivial⟩
    rcases hdep dn hdn with h | h
    · exact h
    · simp at h
  | cons p rest ih =>
    intro avail k v hord hnd hkn hk hdep
    by_cases hpk : p.1 = k
    · have hknr : k ∉ keysOf rest := by
        have := (List.nodup_cons.1 (by simpa using hnd)).1
        rwa [hpk] at this
      rw [updEntry_cons_eq rest v hpk hknr]
      constructor
      · intro dn hdn
        have hpname : p.1 = (deref heap p.2).name := hkn p (List.mem_cons_self _ _)
        have hnames : (deref heap v).name = (deref heap p.2).name := by
          rw [← hk, ← hpname, hpk]
        have hdeps := hnc v p.2 hnames
        rw [hdeps] at hdn
        exact hord.1 dn hdn
      · have := hord.2
        rwa [hpk] at this
    · rw [updEntry_cons_ne rest v hpk]
      refine ⟨hord.1, ih _ k v hord.2 (List.nodup_cons.1 (by simpa using hnd)).2
        (fun q hq => hkn q (List.mem_cons_of_mem _ hq)) hk ?_⟩
      intro dn hdn
      rcases hdep dn hdn with h | h
      · exact Or.inl (List.mem_append_left _ h)
      · rcases List.mem_cons.1 (by simpa using h) with h | h
        · exact Or.inl (List.mem_append_right _ (List.mem_singleton.2 h))
        · exact Or.inr h

/-! ## `dict.update` lemmas -/

@[simp] theorem dictUpdate_nil {α : Type} (d : Dict α) : dictUpdate d [] = d := rfl

@[simp] theorem dictUpdate_cons {α : Type} (d : Dict α) (p : String × α) (src : Dict α) :
    dictUpdate d (p :: src) = dictUpdate (updEntry d p.1 p.2) src := rfl

theorem mem_keysOf_dictUpdate {α : Type} :
    ∀ (src d : Dict α) (a : String),
      a ∈ keysOf (dictUpdate d src) ↔ a ∈ keysOf d ∨ a ∈ keysOf src := by
  intro src
  induction src with
  | nil => simp
  | cons p rest ih =>
    intro d a
    rw [dictUpdate_cons, ih, mem_keysOf_updEntry]
    constructor
    · rintro ((h | rfl) | h)
      · exact Or.inl h
      · exact Or.inr (by simp)
      · exact Or.inr (by simp [h])
    · rintro (h | h)
      · exact Or.inl (Or.inl h)
      · rcases List.mem_cons.1 (by simpa using h) with h | h
        · exact Or.inl (Or.inr h)
        · exact Or.inr h

theorem nodup_keysOf_dictUpdate {α : Type} :
    ∀ (src d : Dict α), (keysOf d).Nodup → (keysOf (dictUpdate d src)).Nodup := by
  intro src
  induction src with
  | nil => intro d h; exact h
  | cons p rest ih =>
    intro d h
    exact ih _ (nodup_keysOf_updEntry p.1 p.2 h)

theorem mem_dictUpdate {α : Type} :
    ∀ (src d : Dict α) (q : String × α),
      q ∈ dictUpdate d src → q ∈ d ∨ q ∈ src := by
  intro src
  induction src with
  | nil => intro d q h; exact Or.inl h
  | cons p rest ih =>
    intro d q h
    rcases ih _ _ h with h2 | h2
    · rcases mem_updEntry h2 with h3 | h3
      · exact Or.inl h3
      · exact Or.inr (by simp [h3])
    · exact Or.inr (List.mem_cons_of_mem _ h2)

theorem keyIsName_updEntry {heap : List MetricObj} {d : Dict Nat} {k : String} {v : Nat}
    (hd : KeyIsName heap d) (hk : k = (deref heap v).name) :
    KeyIsName heap (updEntry d k v) := by
  intro q hq
  rcases mem_updEntry hq with h | h
  · exact hd q h
  · rw [h]; exact hk

theorem keyIsName_dictUpdate {heap : List MetricObj} :
    ∀ {src d : Dict Nat}, KeyIsName heap d → KeyIsName heap src →
      KeyIsName heap (dictUpdate d src) := by
  intro src
  induction src with
  | nil => intro d hd _; exact hd
  | cons p rest ih =>
    intro d hd hsrc
    rw [dictUpdate_cons]
    exact ih (keyIsName_updEntry hd (hsrc p (List.mem_cons_self _ _)))
      (fun q hq => hsrc q (List.mem_cons_of_mem _ hq))

theorem orderedFrom_dictUpdate (heap : List MetricObj) (hnc : NameConsistent heap) :
    ∀ (src d : Dict Nat) (avail : List String),
      OrderedFrom heap avail d → (keysOf d).Nodup → KeyIsName heap d →
      KeyIsName heap src →
      OrderedFrom heap (avail ++ keysOf d) src →
      OrderedFrom heap avail (dictUpdate d src) := by
  intro src
  induction src with
  | nil => intro d avail hord _ _ _ _; exact hord
  | cons p rest ih =>
    intro d avail hord hnd hkn hksrc hsrc
    rw [dictUpdate_cons]
    have hk : p.1 = (deref heap p.2).name := hksrc p (List.mem_cons_self _ _)
    have hord2 : OrderedFrom heap avail (updEntry d p.1 p.2) := by
      apply orderedFrom_updEntry heap hnc d avail p.1 p.2 hord hnd hkn hk
      intro dn hdn
      rcases List.mem_append.1 (hsrc.1 dn hdn) with h | h
      · exact Or.inl h
      · exact Or.inr h
    apply ih _ avail hord2 (nodup_keysOf_updEntry _ _ hnd)
      (keyIsName_updEntry hkn hk)
      (fun q hq => hksrc q (List.mem_cons_of_mem _ hq))
    apply orderedFrom_mono heap rest _ _ _ hsrc.2
    intro x hx
    rcases List.mem_append.1 hx with hx | hx
    · rcases List.mem_append.1 hx with hx | hx
      · exact List.mem_append_left _ hx
      · exact List.mem_append_right _ (mem_keysOf_updEntry.2 (Or.inl hx))
    · exact List.mem_append_right _
        (mem_keysOf_updEntry.2 (Or.inr (List.mem_singleton.1 hx)))

/-! ## Invariants of `resolve` and `resolve_dependencies` -/

theorem mergeClosures_basic (heap : List MetricObj) (f : Nat → Option (Dict Nat))
    (hf : ∀ j c, f j = some c →
      (keysOf c).Nodup ∧ KeyIsName heap c ∧ (deref heap j).name ∈ keysOf c) :
    ∀ (ids : List Nat) (acc out : Dict Nat),
      (keysOf acc).Nodup → KeyIsName heap acc →
      mergeClosures f ids acc = some out →
      (keysOf out).Nodup ∧ KeyIsName heap out ∧
      (∀ x ∈ keysOf acc, x ∈ keysOf out) ∧
      (∀ j ∈ ids, (deref heap j).name ∈ keysOf out) := by
  intro ids
  induction ids with
  | nil =>
    intro acc out hnd hkn h
    obtain rfl : acc = out := by simpa [mergeClosures] using h
    exact ⟨hnd, hkn, fun x hx => hx, by simp⟩
  | cons j rest ih =>
    intro acc out hnd hkn h
    cases hj : f j with
    | none => simp [mergeClosures, hj] at h
    | some c =>
      rw [mergeClosures, hj] at h
      obtain ⟨hndc, hknc, hselfc⟩ := hf j c hj
      have hnd2 := nodup_keysOf_dictUpdate c acc hnd
      have hkn2 := keyIsName_dictUpdate hkn hknc
      obtain ⟨h1, h2, h3, h4⟩ := ih _ _ hnd2 hkn2 h
      refine ⟨h1, h2, fun x hx => h3 _ ((mem_keysOf_dictUpdate c acc x).2 (Or.inl hx)), ?_⟩
      intro j2 hj2
      rcases List.mem_cons.1 hj2 with rfl | hj2
      · exact h3 _ ((mem_keysOf_dictUpdate c acc _).2 (Or.inr hselfc))
      · exact h4 _ hj2

theorem mergeClosures_good (heap : List MetricObj) (hnc : NameConsistent heap)
    (f : Nat → Option (Dict Nat))
    (hf : ∀ j c, f j = some c → GoodDict heap c) :
    ∀ (ids : List Nat) (acc out : Dict Nat),
      GoodDict heap acc →
      mergeClosures f ids acc = some out →
      GoodDict heap out := by
  intro ids
  induction ids with
  | nil =>
    intro acc out hacc h
    obtain rfl : acc = out := by simpa [mergeClosures] using h
    exact hacc
  | cons j rest ih =>
    intro acc out hacc h
    cases hj : f j with
    | none => simp [mergeClosures, hj] at h
    | some c =>
      rw [mergeClosures, hj] at h
      obtain ⟨hndc, hknc, hordc⟩ := hf j c hj
      obtain ⟨hnda, hkna, horda⟩ := hacc
      refine ih _ _ ⟨nodup_keysOf_dictUpdate c acc hnda,
        keyIsName_dictUpdate hkna hknc, ?_⟩ h
      apply orderedFrom_dictUpdate heap hnc c acc [] horda hnda hkna hknc
      exact orderedFrom_mono heap c _ _ (by simp) hordc

theorem resolveObj_basic (heap : List MetricObj) :
    ∀ (fuel i : Nat) (out : Dict Nat), resolveObj heap fuel i = some out →
      (keysOf out).Nodup ∧ KeyIsName heap out ∧
      (deref heap i).name ∈ keysOf out := by
  intro fuel
  induction fuel with
  | zero => intro i out h; rw [resolveObj] at h; exact absurd h (by simp)
  | succ n ih =>
    intro i out h
    rw [resolveObj] at h
    cases hm : mergeClosures (fun j => resolveObj heap n j) (deref heap i).deps [] with
    | none => rw [hm] at h; exact absurd h (by simp)
    | some d =>
      rw [hm] at h
      obtain rfl : updEntry d (deref heap i).name i = out := by
        simpa using h
      obtain ⟨hnd, hkn, -, -⟩ := mergeClosures_basic heap _
        (fun j c hj => ih j c hj) _ _ _ (by simp)
        (fun q hq => absurd hq (List.not_mem_nil q)) hm
      exact ⟨nodup_keysOf_updEntry _ _ hnd, keyIsName_updEntry hkn rfl,
        mem_keysOf_updEntry.2 (Or.inr rfl)⟩

theorem resolveObj_good (heap : List MetricObj) (hnc : NameConsistent heap) :
    ∀ (fuel i : Nat) (out : Dict Nat), resolveObj heap fuel i = some out →
      GoodDict heap out := by
  intro fuel
  induction fuel with
  | zero => intro i out h; rw [resolveObj] at h; exact absurd h (by simp)
  | succ n ih =>
    intro i out h
    rw [resolveObj] at h
    cases hm : mergeClosures (fun j => resolveObj heap n j) (deref heap i).deps [] with
    | none => rw [hm] at h; exact absurd h (by simp)
    | some d =>
      rw [hm] at h
      obtain rfl : updEntry d (deref heap i).name i = out := by
        simpa using h
      obtain ⟨hnd, hkn, -, hnames⟩ := mergeClosures_basic heap _
        (fun j c hj => resolveObj_basic heap n j c hj) _ _ _ (by simp)
        (fun q hq => absurd hq (List.not_mem_nil q)) hm
      have hord : OrderedFrom heap [] d := by
        have hgood := mergeClosures_good heap hnc _
          (fun j c hj => ih j c hj) _ _ _
          ⟨by simp, fun q hq => absurd hq (List.not_mem_nil q), trivial⟩ hm
        exact hgood.2.2
      refine ⟨nodup_keysOf_updEntry _ _ hnd, keyIsName_updEntry hkn rfl, ?_⟩
      apply orderedFrom_updEntry heap hnc d [] _ i hord hnd hkn rfl
      intro dn hdn
      rcases List.mem_map.1 hdn with ⟨j, hj, rfl⟩
      exact Or.inr (hnames j hj)

theorem resolve_dependencies_basic (heap : List MetricObj) (fuel : Nat)
    (ms : List Nat) (out : Dict Nat)
    (h : resolve_dependencies heap fuel ms = some out) :
    (keysOf out).Nodup ∧ KeyIsName heap out ∧
    (∀ j ∈ ms, (deref heap j).name ∈ keysOf out) := by
  obtain ⟨h1, h2, -, h4⟩ := mergeClosures_basic heap _
    (fun j c hj => resolveObj_basic heap fuel j c hj) _ _ _ (by simp)
    (fun q hq => absurd hq (List.not_mem_nil q)) h
  exact ⟨h1, h2, h4⟩

theorem resolve_dependencies_ordered (heap : List MetricObj)
    (hnc : NameConsistent heap) (fuel : Nat) (ms : List Nat) (out : Dict Nat)
    (h : resolve_dependencies heap fuel ms = some out) :
    OrderedFrom heap [] out :=
  (mergeClosures_good heap hnc _
    (fun j c hj => resolveObj_good heap hnc fuel j c hj) _ _ _
    ⟨by simp, fun q hq => absurd hq (List.not_mem_nil q), trivial⟩ h).2.2

/-! ## Claim C1: topological order -/

theorem orderedFrom_take (heap : List MetricObj) :
    ∀ (d : Dict Nat) (avail : List String) (t : Nat) (h : t < d.length),
      OrderedFrom heap avail d →
      ∀ dn ∈ depNames heap (deref heap (d.get ⟨t, h⟩).2),
        dn ∈ avail ++ keysOf (d.take t) := by
  intro d
  induction d with
  | nil => intro avail t h; exact absurd h (by simp)
  | cons p rest ih =>
    intro avail t h hord dn hdn
    cases t with
    | zero =>
      simp only [List.get] at hdn
      simpa using hord.1 dn hdn
    | succ t =>
      have h2 : t < rest.length := by simpa using h
      have hdn2 : dn ∈ depNames heap (deref heap (rest.get ⟨t, h2⟩).2) := by
        simpa using hdn
      have := ih (avail ++ [p.1]) t h2 hord.2 dn hdn2
      simp only [List.take_succ_cons, keysOf_cons, List.append_assoc] at this ⊢
      simpa using this

theorem ordered_topoOkB (heap : List MetricObj) (d : Dict Nat)
    (hkn : KeyIsName heap d) (hord : OrderedFrom heap [] d) :
    topoOkB heap (d.map Prod.snd) = true := by
  rw [topoOkB, List.all_eq_true]
  intro t ht
  rw [List.mem_range, List.length_map] at ht
  rw [List.all_eq_true]
  intro dn hdn
  have hm : t < (d.map Prod.snd).length := by simpa using ht
  rw [List.getD_eq_getElem _ _ hm, List.getElem_map] at hdn
  have hget : d[t] = d.get ⟨t, ht⟩ := rfl
  rw [hget] at hdn
  have hpos := orderedFrom_take heap d [] t ht hord dn hdn
  rw [List.nil_append] at hpos
  have hkeys : keysOf (d.take t) =
      ((d.map Prod.snd).take t).map (fun j => (deref heap j).name) := by
    rw [← List.map_take, List.map_map]
    apply List.map_congr_left
    intro p hp
    exact hkn p (List.take_subset t d hp)
  rw [hkeys] at hpos
  simpa using hpos

/-- C1 (amended): whenever `resolve_dependencies` succeeds (as it does on
every cycle-free collection given enough recursion depth) on a heap in which
a metric's name determines its dependencies' names, the resulting list — and
hence the result of the identity `topo_sort_metrics` — places every metric
after all the metrics named in its dependencies. -/
theorem resolve_topo_order (heap : List MetricObj) (fuel : Nat) (ms : List Nat)
    (out : Dict Nat) (hnc : nameConsistentB heap = true)
    (hres : resolve_dependencies heap fuel ms = some out) :
    topoOkB heap (topo_sort_metrics (out.map Prod.snd)) = true := by
  have hnc2 := nameConsistent_of_b hnc
  have hkn := (resolve_dependencies_basic heap fuel ms out hres).2.1
  have hord := resolve_dependencies_ordered heap hnc2 fuel ms out hres
  rw [topo_sort_metrics]
  exact ordered_topoOkB heap out hkn hord

theorem resolve_topo_order_witness :
    nameConsistentB aggDepHeap = true ∧
    topoOkB aggDepHeap (topo_sort_metrics ([("a", 0), ("d", 1)].map Prod.snd)) = true :=
  ⟨by decide,
   resolve_topo_order aggDepHeap 3 [1] [("a", 0), ("d", 1)] (by decide) (by decide)⟩

/-- C1 as stated is false: `dupNameHeap` is cycle-free (certified by the rank
assignment `[1, 0, 1]`) but holds two distinct metric objects named `m`;
requesting `[0, 2]` makes the closure of object 2 overwrite the key `m` in
place, so the returned order lists `m` (object 2, which depends on `d`)
before `d`. -/
theorem resolve_topo_order_counterexample :
    acyclicB dupNameHeap [1, 0, 1] = true ∧
    resolve_dependencies dupNameHeap 3 [0, 2] = some [("m", 2), ("d", 1)] ∧
    topoOkB dupNameHeap (topo_sort_metrics ([("m", 2), ("d", 1)].map Prod.snd)) = false := by
  exact ⟨by decide, by decide, by decide⟩

/-! ## Claim C6: deduplication and idempotence -/

theorem mergeClosures_congr (f g : Nat → Option (Dict Nat))
    (hfg : ∀ j c, f j = some c → g j = some c) :
    ∀ (ids : List Nat) (acc out : Dict Nat),
      mergeClosures f ids acc = some out → mergeClosures g ids acc = some out := by
  intro ids
  induction ids with
  | nil => intro acc out h; simpa [mergeClosures] using h
  | cons j rest ih =>
    intro acc out h
    cases hj : f j with
    | none => simp [mergeClosures, hj] at h
    | some c =>
      rw [mergeClosures, hj] at h
      rw [mergeClosures, hfg j c hj]
      exact ih _ _ h

theorem resolveObj_mono (heap : List MetricObj) :
    ∀ (f1 f2 i : Nat) (out : Dict Nat), f1 ≤ f2 →
      resolveObj heap f1 i = some out → resolveObj heap f2 i = some out := by
  intro f1
  induction f1 with
  | zero => intro f2 i out _ h; rw [resolveObj] at h; exact absurd h (by simp)
  | succ n ih =>
    intro f2 i out hle h
    obtain ⟨m, rfl⟩ : ∃ m, f2 = m + 1 := ⟨f2 - 1, by omega⟩
    rw [resolveObj] at h ⊢
    cases hm : mergeClosures (fun j => resolveObj heap n j) (deref heap i).deps [] with
    | none => rw [hm] at h; exact absurd h (by simp)
    | some d =>
      rw [hm] at h
      have hm2 : mergeClosures (fun j => resolveObj heap m j) (deref heap i).deps []
          = some d :=
        mergeClosures_congr _ _ (fun j c hj => ih m j c (by omega) hj) _ _ _ hm
      rw [hm2]
      exact h

theorem resolveObj_unique (heap : List MetricObj) (f1 f2 i : Nat)
    (out1 out2 : Dict Nat) (h1 : resolveObj heap f1 i = some out1)
    (h2 : resolveObj heap f2 i = some out2) : out1 = out2 := by
  rcases le_total f1 f2 with h | h
  · have := resolveObj_mono heap f1 f2 i out1 h h1
    rw [this] at h2
    exact Option.some.inj h2
  · have := resolveObj_mono heap f2 f1 i out2 h h2
    rw [this] at h1
    exact (Option.some.inj h1).symm

theorem stronglyClosed_dictUpdate (heap : List MetricObj) (src d : Dict Nat)
    (hd : StronglyClosed heap d) (hsrc : StronglyClosed heap src) :
    StronglyClosed heap (dictUpdate d src) := by
  intro p hp f c hres x hx
  rcases mem_dictUpdate src d p hp with h | h
  · exact (mem_keysOf_dictUpdate src d x).2 (Or.inl (hd p h f c hres x hx))
  · exact (mem_keysOf_dictUpdate src d x).2 (Or.inr (hsrc p h f c hres x hx))

theorem mergeClosures_sc (heap : List MetricObj) (f : Nat → Option (Dict Nat))
    (hf : ∀ j c, f j = some c → StronglyClosed heap c) :
    ∀ (ids : List Nat) (acc out : Dict Nat),
      StronglyClosed heap acc → mergeClosures f ids acc = some out →
      StronglyClosed heap out := by
  intro ids
  induction ids with
  | nil =>
    intro acc out hacc h
    obtain rfl : acc = out := by simpa [mergeClosures] using h
    exact hacc
  | cons j rest ih =>
    intro acc out hacc h
    cases hj : f j with
    | none => simp [mergeClosures, hj] at h
    | some c =>
      rw [mergeClosures, hj] at h
      exact ih _ _ (stronglyClosed_dictUpdate heap c acc hacc (hf j c hj)) h

theorem resolveObj_sc (heap : List MetricObj) :
    ∀ (fuel i : Nat) (out : Dict Nat), resolveObj heap fuel i = some out →
      StronglyClosed heap out := by
  intro fuel
  induction fuel with
  | zero => intro i out h; rw [resolveObj] at h; exact absurd h (by simp)
  | succ n ih =>
    intro i out h
    rw [resolveObj] at h
    cases hm : mergeClosures (fun j => resolveObj heap n j) (deref heap i).deps [] with
    | none => rw [hm] at h; exact absurd h (by simp)
    | some d =>
      rw [hm] at h
      obtain rfl : updEntry d (deref heap i).name i = out := by simpa using h
      have hscd : StronglyClosed heap d := mergeClosures_sc heap _ ih _ _ _
        (fun p hp => absurd hp (List.not_mem_nil p)) hm
      intro p hp f c hres x hx
      rcases mem_updEntry hp with hpd | hpe
      · exact mem_keysOf_updEntry.2 (Or.inl (hscd p hpd f c hres x hx))
      · rw [hpe] at hres
        have horig : resolveObj heap (n + 1) i = some (updEntry d (deref heap i).name i) := by
          rw [resolveObj, hm]
        have hceq := resolveObj_unique heap f (n + 1) i c _ hres horig
        rw [hceq] at hx
        exact hx

theorem resolve_dependencies_sc (heap : List MetricObj) (fuel : Nat)
    (ms : List Nat) (out : Dict Nat)
    (h : resolve_dependencies heap fuel ms = some out) :
    StronglyClosed heap out :=
  mergeClosures_sc heap _ (fun j c hj => resolveObj_sc heap fuel j c hj) _ _ _
    (fun p hp => absurd hp (List.not_mem_nil p)) h

theorem mergeClosures_keys_subset (f : Nat → Option (Dict Nat)) :
    ∀ (ids : List Nat) (acc out : Dict Nat),
      mergeClosures f ids acc = some out →
      ∀ x ∈ keysOf out,
        x ∈ keysOf acc ∨ ∃ j ∈ ids, ∃ c, f j = some c ∧ x ∈ keysOf c := by
  intro ids
  induction ids with
  | nil =>
    intro acc out h x hx
    obtain rfl : acc = out := by simpa [mergeClosures] using h
    exact Or.inl hx
  | cons j rest ih =>
    intro acc out h x hx
    cases hj : f j with
    | none => simp [mergeClosures, hj] at h
    | some c =>
      rw [mergeClosures, hj] at h
      rcases ih _ _ h x hx with h2 | ⟨j2, hj2, c2, hc2, hxc2⟩
      · rcases (mem_keysOf_dictUpdate c acc x).1 h2 with h3 | h3
        · exact Or.inl h3
        · exact Or.inr ⟨j, List.mem_cons_self _ _, c, hj, h3⟩
      · exact Or.inr ⟨j2, List.mem_cons_of_mem _ hj2, c2, hc2, hxc2⟩

/-- C6: the resolved closure is keyed by metric name with no duplicate keys
(a sub-metric shared by name between several requested metrics appears
exactly once), and re-running `resolve_dependencies` on the metrics it
returned yields exactly the same set of names. -/
theorem resolve_dedup_idempotent (heap : List MetricObj) (fuel : Nat)
    (ms : List Nat) (out : Dict Nat)
    (hres : resolve_dependencies heap fuel ms = some out) :
    (keysOf out).Nodup ∧
    ∀ (fuel2 : Nat) (out2 : Dict Nat),
      resolve_dependencies heap fuel2 (topo_sort_metrics (out.map Prod.snd)) = some out2 →
      ∀ n, n ∈ keysOf out2 ↔ n ∈ keysOf out := by
  obtain ⟨hnd, hkn, -⟩ := resolve_dependencies_basic heap fuel ms out hres
  have hsc : StronglyClosed heap out := resolve_dependencies_sc heap fuel ms out hres
  refine ⟨hnd, ?_⟩
  intro fuel2 out2 hres2 n
  rw [topo_sort_metrics] at hres2
  constructor
  · intro hn
    rcases mergeClosures_keys_subset _ _ _ _ hres2 n hn with h | ⟨j, hj, c, hc, hnc⟩
    · simp at h
    · rcases List.mem_map.1 hj with ⟨p, hp, rfl⟩
      exact hsc p hp fuel2 c hc n hnc
  · intro hn
    rcases List.mem_map.1 hn with ⟨p, hp, rfl⟩
    have hname : p.1 = (deref heap p.2).name := hkn p hp
    have hmem : p.2 ∈ out.map Prod.snd := List.mem_map.2 ⟨p, hp, rfl⟩
    have := (resolve_dependencies_basic heap fuel2 _ out2 hres2).2.2 p.2 hmem
    rw [hname]
    exact this

theorem resolve_dedup_idempotent_witness :
    (keysOf [(("mse" : String), (0 : Nat))]).Nodup ∧
    (∀ n, n ∈ keysOf [(("mse" : String), (0 : Nat))] ↔
      n ∈ keysOf [(("mse" : String), (0 : Nat))]) := by
  obtain ⟨h1, h2⟩ := resolve_dedup_idempotent mseHeap 2 [0] [("mse", 0)] (by decide)
  exact ⟨h1, h2 2 [("mse", 0)] (by decide)⟩

/-! ## Claim C2: cycles -/

theorem resolveObj_selfDep (fuel : Nat) : resolveObj selfDepHeap fuel 0 = none := by
  induction fuel with
  | zero => rw [resolveObj]
  | succ n ih =>
    rw [resolveObj]
    have hdeps : (deref selfDepHeap 0).deps = [0] := rfl
    rw [hdeps]
    simp [mergeClosures, ih]

/-! ## Claim C3: length mismatch -/

theorem applyLoop_stopIteration_iff (heap : List MetricObj) (lms : List Nat) :
    ∀ (tps : List (InputData × Int)) (fcs : List Int) (data : Dict (List Int)),
      applyLoop heap lms tps fcs data = Except.error EvalError.stopIteration ↔
      fcs.length < tps.length := by
  intro tps
  induction tps with
  | nil =>
    intro fcs data
    rw [applyLoop]
    simp
  | cons p rest ih =>
    obtain ⟨inp, lbl⟩ := p
    intro fcs data
    cases fcs with
    | nil =>
      rw [applyLoop]
      simp
    | cons fc restFc =>
      rw [applyLoop]
      rw [ih]
      simp only [List.length_cons]
      omega

theorem applyLoop_error_stop (heap : List MetricObj) (lms : List Nat) :
    ∀ (tps : List (InputData × Int)) (fcs : List Int) (data : Dict (List Int))
      (e : EvalError), applyLoop heap lms tps fcs data = Except.error e →
      e = EvalError.stopIteration := by
  intro tps
  induction tps with
  | nil =>
    intro fcs data e h
    rw [applyLoop] at h
    exact absurd h (by simp)
  | cons p rest ih =>
    obtain ⟨inp, lbl⟩ := p
    intro fcs data e h
    cases fcs with
    | nil =>
      rw [applyLoop] at h
      simpa using h.symm
    | cons fc restFc =>
      rw [applyLoop] at h
      exact ih _ _ _ h

theorem npStack_error (l : List Int) (e : EvalError)
    (h : npStack l = Except.error e) : e = EvalError.stackError := by
  rw [npStack] at h
  by_cases hl : l.isEmpty
  · rw [if_pos hl] at h
    simpa using h.symm
  · rw [if_neg hl] at h
    exact absurd h (by simp)

theorem stackData_error_stack :
    ∀ (d : Dict (List Int)) (e : EvalError),
      stackData d = Except.error e → e = EvalError.stackError := by
  intro d
  induction d with
  | nil =>
    intro e h
    rw [stackData] at h
    exact absurd h (by simp)
  | cons p rest ih =>
    obtain ⟨k, v⟩ := p
    intro e h
    rw [stackData] at h
    cases hnp : npStack v with
    | error e2 =>
      rw [hnp] at h
      simp at h
      rw [← h]
      exact npStack_error v e2 hnp
    | ok sv =>
      rw [hnp] at h
      cases hst : stackData rest with
      | error e3 =>
        rw [hst] at h
        simp at h
        rw [← h]
        exact ih e3 hst
      | ok srest =>
        rw [hst] at h
        exact absurd h (by simp)

theorem stackedTable_no_stop (heap : List MetricObj) (ev : EvaluatorState)
    (tps : List (InputData × Int)) (data : Dict (List Int)) :
    stackedTable heap ev tps data ≠ Except.error EvalError.stopIteration := by
  rw [stackedTable]
  cases hst : stackData data with
  | error e =>
    have he := stackData_error_stack data e hst
    subst he
    simp
  | ok dataNp => simp

/-- C3 (amended): `Evaluator.apply` fails with `StopIteration` exactly when
the forecast sequence is shorter than the dataset (`next(forecasts)` on an
exhausted iterator); when the forecast sequence is longer, the extra
forecasts are silently ignored and no length error is raised. -/
theorem apply_stopIteration_iff (heap : List MetricObj) (ev : EvaluatorState)
    (tps : List (InputData × Int)) (fcs : List Int) :
    Evaluator.apply heap ev tps fcs = Except.error EvalError.stopIteration ↔
    fcs.length < tps.length := by
  constructor
  · intro h
    by_contra hlt
    cases hal : applyLoop heap ev.localMetrics tps fcs (initData heap ev.localMetrics) with
    | error e =>
      have he := applyLoop_error_stop heap ev.localMetrics tps fcs _ e hal
      subst he
      exact hlt ((applyLoop_stopIteration_iff heap ev.localMetrics tps fcs _).1 hal)
    | ok data =>
      rw [Evaluator.apply, hal] at h
      simp only [] at h
      exact stackedTable_no_stop heap ev tps data h
  · intro hlt
    have hal := (applyLoop_stopIteration_iff heap ev.localMetrics tps fcs
      (initData heap ev.localMetrics)).2 hlt
    rw [Evaluator.apply, hal]

/-- C3 as stated is false in one direction: a dataset of length 1 with a
forecast sequence of length 2 completes normally (the trailing forecast is
never consumed), instead of failing with a length-mismatch error. -/
theorem apply_length_mismatch_counterexample :
    mkEvaluator mseHeap 2 [0] = some mseEvaluator ∧
    ([((⟨0, 0, 0⟩ : InputData), (3 : Int))].length ≠ [(1 : Int), 5].length) ∧
    Evaluator.apply mseHeap mseEvaluator [(⟨0, 0, 0⟩, 3)] [1, 5] =
      Except.ok
        { data := [("mse", [4])]
          target_metrics := ["mse"]
          metricsIds := [0]
          itemIds := [0]
          starts := [0] } := by
  refine ⟨by decide, by decide, rfl⟩

/-! ## Claim C10: empty dataset -/

theorem updEntry_ne_nil {α : Type} (d : Dict α) (k : String) (v : α) :
    updEntry d k v ≠ [] := by
  rw [updEntry]
  by_cases h : k ∈ keysOf d
  · rw [if_pos h]
    intro hc
    rw [List.map_eq_nil_iff] at hc
    rw [hc] at h
    simp at h
  · rw [if_neg h]
    simp

theorem foldInit_ne_nil (heap : List MetricObj) :
    ∀ (lms : List Nat) (d : Dict (List Int)), d ≠ [] →
      lms.foldl (fun d2 m => updEntry d2 (deref heap m).name []) d ≠ [] := by
  intro lms
  induction lms with
  | nil => intro d h; exact h
  | cons m rest ih =>
    intro d h
    exact ih _ (updEntry_ne_nil _ _ _)

theorem initData_ne_nil (heap : List MetricObj) (m : Nat) (rest : List Nat) :
    initData heap (m :: rest) ≠ [] := by
  rw [initData, List.foldl_cons]
  exact foldInit_ne_nil heap rest _ (updEntry_ne_nil _ _ _)

theorem foldInit_vals (heap : List MetricObj) :
    ∀ (lms : List Nat) (d : Dict (List Int)), (∀ p ∈ d, p.2 = []) →
      ∀ p ∈ lms.foldl (fun d2 m => updEntry d2 (deref heap m).name []) d, p.2 = [] := by
  intro lms
  induction lms with
  | nil => intro d h; exact h
  | cons m rest ih =>
    intro d h
    apply ih
    intro p hp
    rcases mem_updEntry hp with h2 | h2
    · exact h p h2
    · rw [h2]

theorem initData_vals (heap : List MetricObj) (lms : List Nat) :
    ∀ p ∈ initData heap lms, p.2 = [] := by
  rw [initData]
  exact foldInit_vals heap lms [] (fun p hp => absurd hp (List.not_mem_nil p))

/-- C10 (amended): for every evaluator with at least one resolved local
metric, `apply` on an empty dataset runs zero items and then fails at
`np.stack([])` with the stack error; only an evaluator with no metrics at
all returns (an empty) result table on an empty dataset. -/
theorem apply_empty_dataset_stackError (heap : List MetricObj)
    (ev : EvaluatorState) (fcs : List Int) (hne : ev.localMetrics ≠ []) :
    Evaluator.apply heap ev [] fcs = Except.error EvalError.stackError := by
  have hshow : Evaluator.apply heap ev [] fcs
      = stackedTable heap ev [] (initData heap ev.localMetrics) := rfl
  rw [hshow]
  obtain ⟨m, rest, hlms⟩ : ∃ m rest, ev.localMetrics = m :: rest := by
    cases h : ev.localMetrics with
    | nil => exact absurd h hne
    | cons m rest => exact ⟨m, rest, rfl⟩
  have hinit : initData heap ev.localMetrics ≠ [] := by
    rw [hlms]
    exact initData_ne_nil heap m rest
  obtain ⟨p, drest, hd⟩ : ∃ p drest, initData heap ev.localMetrics = p :: drest := by
    cases h : initData heap ev.localMetrics with
    | nil => exact absurd h hinit
    | cons p drest => exact ⟨p, drest, rfl⟩
  have hpv : p.2 = [] := initData_vals heap ev.localMetrics p (hd ▸ List.mem_cons_self p drest)
  rw [hd]
  obtain ⟨k, v⟩ := p
  simp only at hpv
  rw [stackedTable, stackData, hpv, npStack]
  simp

theorem apply_empty_dataset_stackError_witness :
    Evaluator.apply mseHeap mseEvaluator [] [] = Except.error EvalError.stackError :=
  apply_empty_dataset_stackError mseHeap mseEvaluator [] (by decide)

/-- C10 as stated is false for an evaluator constructed from an empty metric
collection: its `local_metrics` dict comprehension is empty, `np.stack` is
never called, and `apply` on an empty dataset returns an empty result table
normally. -/
theorem apply_empty_dataset_counterexample :
    mkEvaluator mseHeap 1 [] = some emptyEvaluator ∧
    Evaluator.apply mseHeap emptyEvaluator [] [] =
      Except.ok
        { data := []
          target_metrics := []
          metricsIds := []
          itemIds := []
          starts := [] } := by
  refine ⟨by decide, rfl⟩

/-! ## Claim C7: the per-item scratch dict -/

theorem itemLoop_snd (heap : List MetricObj) (inp : InputData) (lbl fc : Int) :
    ∀ (lms : List Nat) (scratch : Dict Int) (data : Dict (List Int)),
      (itemLoop heap inp lbl fc lms scratch data).2 =
        scratchAfter heap inp lbl fc lms scratch := by
  intro lms
  induction lms with
  | nil => intro scratch data; rw [itemLoop, scratchAfter]
  | cons m rest ih =>
    intro scratch data
    rw [itemLoop, scratchAfter]
    exact ih _ _

theorem scratchAfter_append (heap : List MetricObj) (inp : InputData) (lbl fc : Int) :
    ∀ (l1 l2 : List Nat) (scratch : Dict Int),
      scratchAfter heap inp lbl fc (l1 ++ l2) scratch =
        scratchAfter heap inp lbl fc l2 (scratchAfter heap inp lbl fc l1 scratch) := by
  intro l1
  induction l1 with
  | nil => intro l2 scratch; rw [List.nil_append, scratchAfter]
  | cons m rest ih =>
    intro l2 scratch
    rw [List.cons_append, scratchAfter, scratchAfter]
    exact ih _ _

theorem itemValues_append (heap : List MetricObj) (inp : InputData) (lbl fc : Int) :
    ∀ (l1 l2 : List Nat) (scratch : Dict Int),
      itemValues heap inp lbl fc (l1 ++ l2) scratch =
        itemValues heap inp lbl fc l1 scratch ++
          itemValues heap inp lbl fc l2 (scratchAfter heap inp lbl fc l1 scratch) := by
  intro l1
  induction l1 with
  | nil => intro l2 scratch; rw [List.nil_append, itemValues, scratchAfter, List.nil_append]
  | cons m rest ih =>
    intro l2 scratch
    rw [List.cons_append, itemValues, itemValues, scratchAfter, List.cons_append]
    rw [ih]

theorem itemValues_length (heap : List MetricObj) (inp : InputData) (lbl fc : Int) :
    ∀ (lms : List Nat) (scratch : Dict Int),
      (itemValues heap inp lbl fc lms scratch).length = lms.length := by
  intro lms
  induction lms with
  | nil => intro scratch; rw [itemValues]; rfl
  | cons m rest ih =>
    intro scratch
    rw [itemValues, List.length_cons, List.length_cons, ih]

theorem updEntry_not_mem {α : Type} {d : Dict α} {k : String} (v : α)
    (h : k ∉ keysOf d) : updEntry d k v = d ++ [(k, v)] := by
  rw [updEntry, if_neg h]

theorem scratchAfter_zip (heap : List MetricObj) (inp : InputData) (lbl fc : Int) :
    ∀ (lms : List Nat) (scratch : Dict Int),
      (namesOf heap lms).Nodup →
      (∀ n ∈ namesOf heap lms, n ∉ keysOf scratch) →
      scratchAfter heap inp lbl fc lms scratch =
        scratch ++ List.zip (namesOf heap lms) (itemValues heap inp lbl fc lms scratch) := by
  intro lms
  induction lms with
  | nil =>
    intro scratch _ _
    rw [scratchAfter, itemValues]
    simp [namesOf]
  | cons m rest ih =>
    intro scratch hnd hfresh
    have hm : (deref heap m).name ∉ keysOf scratch := hfresh _ (by simp [namesOf])
    have hnames : namesOf heap (m :: rest) = (deref heap m).name :: namesOf heap rest := rfl
    rw [hnames] at hnd hfresh
    rw [scratchAfter, itemValues, updEntry_not_mem _ hm]
    rw [ih (scratch ++ [((deref heap m).name, (deref heap m).getFn inp lbl fc scratch)])
      (List.nodup_cons.1 hnd).2 ?hfresh2]
    · rw [hnames, List.zip_cons_cons, List.append_assoc]
      rfl
    case hfresh2 =>
      intro n hn
      rw [keysOf_append]
      intro hc
      rcases List.mem_append.1 hc with hc | hc
      · exact hfresh n (List.mem_cons_of_mem _ hn) hc
      · have : n = (deref heap m).name := by simpa [keysOf] using hc
        exact (List.nodup_cons.1 hnd).1 (this ▸ hn)

theorem lookup_zip :
    ∀ (names : List String) (vals : List Int) (i : Nat) (hi : i < names.length),
      names.Nodup → vals.length = names.length →
      lookup (List.zip names vals) (names.get ⟨i, hi⟩) = some (vals.getD i 0) := by
  intro names
  induction names with
  | nil => intro vals i hi; simp at hi
  | cons nm rest ih =>
    intro vals i hi hnd hlen
    cases vals with
    | nil => simp at hlen
    | cons v vrest =>
      cases i with
      | zero =>
        simp [lookup, List.zip_cons_cons, List.find?]
      | succ i =>
        have hi2 : i < rest.length := by simpa using hi
        have hget : (nm :: rest).get ⟨i + 1, hi⟩ = rest.get ⟨i, hi2⟩ := rfl
        have hne : (nm == (nm :: rest).get ⟨i + 1, hi⟩) = false := by
          rw [hget]
          rw [beq_eq_false_iff_ne]
          intro hc
          exact (List.nodup_cons.1 hnd).1 (hc ▸ List.get_mem rest i hi2)
        rw [List.zip_cons_cons, lookup]
        rw [List.find?]
        simp only [hne]
        rw [hget]
        have := ih vrest i hi2 (List.nodup_cons.1 hnd).2 (by simpa using hlen)
        rw [lookup] at this
        rw [this]
        simp

/-- C7: in the per-item metric loop, the scratch dict (`latest_metrics_data`)
is exactly the association of the already-processed metrics to their computed
values: (1) the loop's final scratch dict is `scratchAfter`; (2) each metric's
value is recorded into the scratch dict immediately after it is computed;
(3) each metric's value is computed from the scratch dict holding exactly the
earlier metrics' values; and (4) every metric evaluated later can look up the
value of every metric evaluated earlier in the order. -/
theorem metric_loop_scratch (heap : List MetricObj) (inp : InputData) (lbl fc : Int)
    (lms : List Nat) (hnd : (namesOf heap lms).Nodup) :
    (∀ (scratch : Dict Int) (data : Dict (List Int)),
        (itemLoop heap inp lbl fc lms scratch data).2 =
          scratchAfter heap inp lbl fc lms scratch) ∧
    (∀ (j : Nat) (hj : j < lms.length),
        (itemValues heap inp lbl fc lms []).getD j 0 =
          (deref heap (lms.get ⟨j, hj⟩)).getFn inp lbl fc
            (scratchAfter heap inp lbl fc (lms.take j) [])) ∧
    (∀ (j : Nat) (hj : j < lms.length),
        scratchAfter heap inp lbl fc (lms.take (j + 1)) [] =
          updEntry (scratchAfter heap inp lbl fc (lms.take j) [])
            (deref heap (lms.get ⟨j, hj⟩)).name
            ((itemValues heap inp lbl fc lms []).getD j 0)) ∧
    (∀ (i j : Nat), i < j → ∀ (hj : j < lms.length) (hi : i < lms.length),
        lookup (scratchAfter heap inp lbl fc (lms.take j) [])
          (deref heap (lms.get ⟨i, hi⟩)).name =
          some ((itemValues heap inp lbl fc lms []).getD i 0)) := by
  have htake : ∀ (j : Nat) (hjj : j < lms.length),
      lms.take (j + 1) = lms.take j ++ [lms.get ⟨j, hjj⟩] := by
    intro j hjj
    rw [List.take_succ]
    congr 1
    rw [List.getElem?_eq_getElem hjj]
    rfl
  have hvals : ∀ (j : Nat) (hj : j < lms.length),
      (itemValues heap inp lbl fc lms []).getD j 0 =
        (deref heap (lms.get ⟨j, hj⟩)).getFn inp lbl fc
          (scratchAfter heap inp lbl fc (lms.take j) []) := by
    intro j hj
    have hsplit : lms = lms.take j ++ lms.drop j := (List.take_append_drop j lms).symm
    have hdrop : lms.drop j = lms.get ⟨j, hj⟩ :: lms.drop (j + 1) := by
      rw [List.drop_eq_getElem_cons hj]
      rfl
    conv_lhs => rw [hsplit]
    rw [itemValues_append]
    have hlen1 : (itemValues heap inp lbl fc (lms.take j) []).length = j := by
      rw [itemValues_length, List.length_take]
      omega
    rw [List.getD_append_right _ _ _ _ (by omega)]
    rw [hlen1, Nat.sub_self, hdrop, itemValues]
    rfl
  refine ⟨itemLoop_snd heap inp lbl fc lms, hvals, ?_, ?_⟩
  · intro j hj
    rw [htake j hj, scratchAfter_append, scratchAfter, scratchAfter]
    rw [hvals j hj]
  · intro i j hij hj hi
    have hit : i < (lms.take j).length := by
      rw [List.length_take]
      omega
    have hndt : (namesOf heap (lms.take j)).Nodup := by
      have hsub : namesOf heap (lms.take j) = (namesOf heap lms).take j := by
        simp only [namesOf]
        rw [List.map_take]
      rw [hsub]
      exact hnd.sublist (List.take_sublist j _)
    rw [scratchAfter_zip heap inp lbl fc (lms.take j) [] hndt
      (fun n _ hc => by simp [keysOf] at hc)]
    rw [List.nil_append]
    have hitn : i < (namesOf heap (lms.take j)).length := by
      simp only [namesOf, List.length_map]
      exact hit
    have hname : (namesOf heap (lms.take j)).get ⟨i, hitn⟩ =
        (deref heap (lms.get ⟨i, hi⟩)).name := by
      have h2 : (lms.take j)[i] = lms[i] := @List.getElem_take _ lms j i hit
      simp [namesOf, h2]
    rw [← hname]
    rw [lookup_zip _ _ i hitn hndt (by rw [itemValues_length]; simp only [namesOf, List.length_map])]
    congr 1
    have hsplit : lms = lms.take j ++ lms.drop j := (List.take_append_drop j lms).symm
    conv_rhs => rw [hsplit]
    rw [itemValues_append]
    have hlen2 : i < (itemValues heap inp lbl fc (lms.take j) []).length := by
      rw [itemValues_length]
      exact hit
    rw [List.getD_append _ _ _ _ hlen2]

theorem metric_loop_scratch_witness :
    lookup (scratchAfter aggDepHeap ⟨0, 0, 0⟩ 0 0 ([0, 1].take 1) [])
      (deref aggDepHeap ([0, 1].get ⟨0, by decide⟩)).name =
      some ((itemValues aggDepHeap ⟨0, 0, 0⟩ 0 0 [0, 1] []).getD 0 0) := by
  have h := metric_loop_scratch aggDepHeap ⟨0, 0, 0⟩ 0 0 [0, 1] (by decide)
  exact h.2.2.2 0 1 (by decide) (by decide) (by decide)

/-! ## Claim C8: `LocalMetrics.get` -/

theorem keysOf_appendData (d : Dict (List Int)) (k : String) (v : Int) :
    keysOf (appendData d k v) = keysOf d := by
  simp only [appendData, keysOf, List.map_map]
  apply List.map_congr_left
  intro p _
  by_cases hp : p.1 = k
  · simp [hp]
  · simp [hp]

theorem itemLoop_keys (heap : List MetricObj) (inp : InputData) (lbl fc : Int) :
    ∀ (lms : List Nat) (scratch : Dict Int) (data : Dict (List Int)),
      keysOf (itemLoop heap inp lbl fc lms scratch data).1 = keysOf data := by
  intro lms
  induction lms with
  | nil => intro scratch data; rw [itemLoop]
  | cons m rest ih =>
    intro scratch data
    rw [itemLoop, ih, keysOf_appendData]

theorem applyLoop_keys (heap : List MetricObj) (lms : List Nat) :
    ∀ (tps : List (InputData × Int)) (fcs : List Int) (data d2 : Dict (List Int)),
      applyLoop heap lms tps fcs data = Except.ok d2 → keysOf d2 = keysOf data := by
  intro tps
  induction tps with
  | nil =>
    intro fcs data d2 h
    rw [applyLoop] at h
    obtain rfl : data = d2 := by simpa using h
    rfl
  | cons p rest ih =>
    obtain ⟨inp, lbl⟩ := p
    intro fcs data d2 h
    cases fcs with
    | nil =>
      rw [applyLoop] at h
      exact absurd h (by simp)
    | cons fc restFc =>
      rw [applyLoop] at h
      rw [ih _ _ _ h, itemLoop_keys]

theorem stackData_keys :
    ∀ (d d2 : Dict (List Int)), stackData d = Except.ok d2 → keysOf d2 = keysOf d := by
  intro d
  induction d with
  | nil =>
    intro d2 h
    rw [stackData] at h
    obtain rfl : ([] : Dict (List Int)) = d2 := by simpa using h
    rfl
  | cons p rest ih =>
    obtain ⟨k, v⟩ := p
    intro d2 h
    rw [stackData] at h
    cases hnp : npStack v with
    | error e => rw [hnp] at h; exact absurd h (by simp)
    | ok sv =>
      rw [hnp] at h
      cases hst : stackData rest with
      | error e => rw [hst] at h; exact absurd h (by simp)
      | ok srest =>
        rw [hst] at h
        obtain rfl : (k, sv) :: srest = d2 := by simpa using h
        rw [keysOf_cons, keysOf_cons, ih srest hst]

theorem mem_keysOf_foldInitLike (heap : List MetricObj) :
    ∀ (lms : List Nat) (d : Dict (List Int)) (n : String),
      n ∈ keysOf (lms.foldl (fun d2 m => updEntry d2 (deref heap m).name []) d) ↔
      n ∈ keysOf d ∨ n ∈ namesOf heap lms := by
  intro lms
  induction lms with
  | nil => intro d n; simp [namesOf]
  | cons m rest ih =>
    intro d n
    rw [List.foldl_cons, ih, mem_keysOf_updEntry]
    have hn : namesOf heap (m :: rest) = (deref heap m).name :: namesOf heap rest := rfl
    rw [hn]
    constructor
    · rintro ((h | rfl) | h)
      · exact Or.inl h
      · exact Or.inr (List.mem_cons_self _ _)
      · exact Or.inr (List.mem_cons_of_mem _ h)
    · rintro (h | h)
      · exact Or.inl (Or.inl h)
      · rcases List.mem_cons.1 h with rfl | h
        · exact Or.inl (Or.inr rfl)
        · exact Or.inr h

theorem mem_keysOf_initData (heap : List MetricObj) (lms : List Nat) (n : String) :
    n ∈ keysOf (initData heap lms) ↔ n ∈ namesOf heap lms := by
  rw [initData, mem_keysOf_foldInitLike]
  simp

theorem keysOf_eq_namesOf (heap : List MetricObj) (d : Dict Nat)
    (hkn : KeyIsName heap d) : keysOf d = namesOf heap (d.map Prod.snd) := by
  simp only [keysOf, namesOf, List.map_map]
  apply List.map_congr_left
  intro p hp
  exact hkn p hp

theorem lookup_cons {α : Type} (p : String × α) (d : Dict α) (k : String) :
    lookup (p :: d) k = if p.1 == k then some p.2 else lookup d k := by
  rw [lookup, List.find?]
  by_cases h : p.1 == k
  · simp [h]
  · simp [h, lookup]

theorem lookup_filter_mem (targets : List String) :
    ∀ (d : Dict (List Int)) (n : String), targets.contains n = true →
      lookup (d.filter (fun p => targets.contains p.1)) n = lookup d n := by
  intro d
  induction d with
  | nil => intro n _; rfl
  | cons p rest ih =>
    intro n hc
    rw [List.filter_cons]
    by_cases hp : p.1 = n
    · have hf : targets.contains p.1 = true := by rw [hp]; exact hc
      rw [if_pos hf, lookup_cons, lookup_cons]
      simp [hp]
    · have hbe : ¬((p.1 == n) = true) := by
        rw [beq_eq_false_iff_ne.2 hp]
        simp
      by_cases hf : targets.contains p.1 = true
      · rw [if_pos hf, lookup_cons, lookup_cons, if_neg hbe, if_neg hbe]
        exact ih n hc
      · rw [if_neg hf, lookup_cons, if_neg hbe]
        exact ih n hc

theorem mem_keysOf_filter {d : Dict (List Int)} {targets : List String} {n : String} :
    n ∈ keysOf (d.filter (fun p => targets.contains p.1)) ↔
    n ∈ keysOf d ∧ n ∈ targets := by
  simp only [keysOf, List.mem_map]
  constructor
  · rintro ⟨p, hp, rfl⟩
    rw [List.mem_filter] at hp
    exact ⟨⟨p, hp.1, rfl⟩, by simpa using hp.2⟩
  · rintro ⟨⟨p, hp, rfl⟩, ht⟩
    exact ⟨p, List.mem_filter.2 ⟨hp, by simpa using ht⟩, rfl⟩

/-- C8: for every completed run, `get()` projects the result table to exactly
the names of the originally requested non-aggregating metrics — metrics pulled
in only as dependencies and requested aggregating metrics are excluded — and,
on those names, returns the same per-item arrays the table holds. -/
theorem apply_get_requested (heap : List MetricObj) (fuel : Nat) (ms : List Nat)
    (ev : EvaluatorState) (tps : List (InputData × Int)) (fcs : List Int)
    (lm : LocalMetricsModel)
    (hev : mkEvaluator heap fuel ms = some ev)
    (happ : Evaluator.apply heap ev tps fcs = Except.ok lm) :
    (∀ n, n ∈ keysOf lm.get ↔
        n ∈ namesOf heap (ms.filter (fun i => !(deref heap i).can_aggregate))) ∧
    (∀ n, n ∈ keysOf lm.get → lookup lm.get n = lookup lm.data n) := by
  rw [mkEvaluator] at hev
  cases hres : resolve_dependencies heap fuel ms with
  | none => rw [hres] at hev; exact absurd hev (by simp)
  | some out =>
    rw [hres] at hev
    have hev2 : ev =
        { localMetricTargets := ms.filter (fun i => !(deref heap i).can_aggregate)
          aggregationTargets := ms.filter (fun i => (deref heap i).can_aggregate)
          localMetrics := topo_sort_metrics (out.map Prod.snd) } := by
      have := Option.some.inj hev
      exact this.symm
    subst hev2
    rw [Evaluator.apply] at happ
    cases hal : applyLoop heap (topo_sort_metrics (out.map Prod.snd)) tps fcs
        (initData heap (topo_sort_metrics (out.map Prod.snd))) with
    | error e => rw [hal] at happ; exact absurd happ (by simp)
    | ok data =>
      rw [hal] at happ
      simp only [] at happ
      rw [stackedTable] at happ
      cases hst : stackData data with
      | error e => rw [hst] at happ; exact absurd happ (by simp)
      | ok dataNp =>
        rw [hst] at happ
        have hlm : lm =
            { data := dataNp
              target_metrics := (ms.filter (fun i => !(deref heap i).can_aggregate)).map
                (fun i => (deref heap i).name)
              metricsIds := topo_sort_metrics (out.map Prod.snd) ++
                ms.filter (fun i => (deref heap i).can_aggregate)
              itemIds := tps.map (fun p => p.1.itemId)
              starts := tps.map (fun p => p.1.start) } := by
          have := Option.some.inj (congrArg Except.toOption happ)
          exact this.symm
        subst hlm
        obtain ⟨hnodup, hkn, hreq⟩ := resolve_dependencies_basic heap fuel ms out hres
        have hkeysNp : keysOf dataNp = keysOf data := stackData_keys data dataNp hst
        have hkeysData : keysOf data =
            keysOf (initData heap (topo_sort_metrics (out.map Prod.snd))) :=
          applyLoop_keys heap _ tps fcs _ data hal
        have htargets : ∀ n,
            n ∈ (ms.filter (fun i => !(deref heap i).can_aggregate)).map
              (fun i => (deref heap i).name) → n ∈ keysOf dataNp := by
          intro n hn
          rcases List.mem_map.1 hn with ⟨i, hi, rfl⟩
          have hims : i ∈ ms := List.mem_of_mem_filter hi
          have : (deref heap i).name ∈ keysOf out := hreq i hims
          rw [hkeysNp, hkeysData, mem_keysOf_initData]
          rw [topo_sort_metrics]
          rw [keysOf_eq_namesOf heap out hkn] at this
          exact this
        constructor
        · intro n
          have hget : (LocalMetricsModel.get
              { data := dataNp
                target_metrics := (ms.filter (fun i => !(deref heap i).can_aggregate)).map
                  (fun i => (deref heap i).name)
                metricsIds := topo_sort_metrics (out.map Prod.snd) ++
                  ms.filter (fun i => (deref heap i).can_aggregate)
                itemIds := tps.map (fun p => p.1.itemId)
                starts := tps.map (fun p => p.1.start) }) =
              dataNp.filter (fun p =>
                ((ms.filter (fun i => !(deref heap i).can_aggregate)).map
                  (fun i => (deref heap i).name)).contains p.1) := rfl
          rw [hget, mem_keysOf_filter]
          constructor
          · rintro ⟨-, h2⟩
            simpa [namesOf] using h2
          · intro h
            have h2 : n ∈ (ms.filter (fun i => !(deref heap i).can_aggregate)).map
                (fun i => (deref heap i).name) := by simpa [namesOf] using h
            exact ⟨htargets n h2, h2⟩
        · intro n hn
          have hget : (LocalMetricsModel.get
              { data := dataNp
                target_metrics := (ms.filter (fun i => !(deref heap i).can_aggregate)).map
                  (fun i => (deref heap i).name)
                metricsIds := topo_sort_metrics (out.map Prod.snd) ++
                  ms.filter (fun i => (deref heap i).can_aggregate)
                itemIds := tps.map (fun p => p.1.itemId)
                starts := tps.map (fun p => p.1.start) }) =
              dataNp.filter (fun p =>
                ((ms.filter (fun i => !(deref heap i).can_aggregate)).map
                  (fun i => (deref heap i).name)).contains p.1) := rfl
          rw [hget] at hn ⊢
          rw [mem_keysOf_filter] at hn
          apply lookup_filter_mem
          simpa using hn.2

theorem apply_get_requested_witness :
    "mse" ∈ keysOf (LocalMetricsModel.get
      { data := [("mse", [4])]
        target_metrics := ["mse"]
        metricsIds := [0]
        itemIds := [7]
        starts := [8] }) := by
  have h := apply_get_requested mseHeap 2 [0] mseEvaluator
    [(⟨7, 8, 0⟩, 5)] [3]
    { data := [("mse", [4])]
      target_metrics := ["mse"]
      metricsIds := [0]
      itemIds := [7]
      starts := [8] } (by decide) rfl
  exact (h.1 "mse").2 (by decide)

/-! ## Claim C9: `LocalMetrics.aggregate` -/

theorem lookup_map_upd {α : Type} :
    ∀ (d : Dict α) (k : String) (v : α), k ∈ keysOf d →
      lookup (d.map (fun p => if p.1 = k then (k, v) else p)) k = some v := by
  intro d
  induction d with
  | nil => intro k v h; simp at h
  | cons p rest ih =>
    intro k v h
    by_cases hp : p.1 = k
    · rw [List.map_cons, if_pos hp, lookup_cons]
      simp
    · rw [List.map_cons, if_neg hp, lookup_cons]
      have hbe : ¬((p.1 == k) = true) := by
        rw [beq_eq_false_iff_ne.2 hp]
        simp
      rw [if_neg hbe]
      apply ih
      rcases List.mem_cons.1 (by simpa using h) with h2 | h2
      · exact absurd h2.symm hp
      · exact h2

theorem lookup_append_last {α : Type} :
    ∀ (d : Dict α) (k : String) (v : α), k ∉ keysOf d →
      lookup (d ++ [(k, v)]) k = some v := by
  intro d
  induction d with
  | nil => intro k v _; simp [lookup_cons]
  | cons p rest ih =>
    intro k v h
    rw [List.cons_append, lookup_cons]
    have hp : ¬(p.1 = k) := by
      intro hc
      exact h (by simp [hc.symm])
    have hbe : ¬((p.1 == k) = true) := by
      rw [beq_eq_false_iff_ne.2 hp]
      simp
    rw [if_neg hbe]
    apply ih
    intro hc
    exact h (by simp [hc])

theorem lookup_updEntry_self {α : Type} (d : Dict α) (k : String) (v : α) :
    lookup (updEntry d k v) k = some v := by
  by_cases h : k ∈ keysOf d
  · rw [updEntry, if_pos h]
    exact lookup_map_upd d k v h
  · rw [updEntry, if_neg h]
    exact lookup_append_last d k v h

theorem lookup_updEntry_ne {α : Type} :
    ∀ (d : Dict α) (k n : String) (v : α), n ≠ k →
      lookup (updEntry d k v) n = lookup d n := by
  intro d
  induction d with
  | nil =>
    intro k n v hne
    rw [updEntry_nil, lookup_cons]
    have hbe : ¬((k == n) = true) := by
      rw [beq_eq_false_iff_ne.2 (fun hc => hne hc.symm)]
      simp
    rw [if_neg hbe]
  | cons p rest ih =>
    intro k n v hne
    by_cases hp : p.1 = k
    · by_cases hr : k ∈ keysOf rest
      · have hmem : k ∈ keysOf (p :: rest) := by simp [hr]
        rw [updEntry, if_pos hmem, List.map_cons, if_pos hp, lookup_cons, lookup_cons]
        have hbe : ¬((k == n) = true) := by
          rw [beq_eq_false_iff_ne.2 (fun hc => hne hc.symm)]
          simp
        have hbe2 : ¬((p.1 == n) = true) := by
          rw [beq_eq_false_iff_ne.2 (fun hc => hne (hp ▸ hc).symm)]
          simp
        rw [if_neg hbe, if_neg hbe2]
        have hupd : lookup (List.map (fun p => if p.1 = k then (k, v) else p) rest) n
            = lookup rest n := by
          have := ih k n v hne
          rw [updEntry, if_pos hr] at this
          exact this
        exact hupd
      · rw [updEntry_cons_eq rest v hp hr, lookup_cons, lookup_cons]
        have hbe : ¬((k == n) = true) := by
          rw [beq_eq_false_iff_ne.2 (fun hc => hne hc.symm)]
          simp
        have hbe2 : ¬((p.1 == n) = true) := by
          rw [beq_eq_false_iff_ne.2 (fun hc => hne (hp ▸ hc).symm)]
          simp
        rw [if_neg hbe, if_neg hbe2]
    · rw [updEntry_cons_ne rest v hp, lookup_cons, lookup_cons]
      by_cases hq : (p.1 == n) = true
      · rw [if_pos hq, if_pos hq]
      · rw [if_neg hq, if_neg hq]
        exact ih k n v hne

theorem foldAgg_keys (heap : List MetricObj) (g : Nat → Int) :
    ∀ (ids : List Nat) (acc : Dict Int) (n : String),
      n ∈ keysOf (ids.foldl (fun acc2 i => if (deref heap i).can_aggregate
          then updEntry acc2 (deref heap i).aggregation_name (g i) else acc2) acc) ↔
      n ∈ keysOf acc ∨ ∃ i ∈ ids, (deref heap i).can_aggregate = true ∧
        (deref heap i).aggregation_name = n := by
  intro ids
  induction ids with
  | nil => intro acc n; simp
  | cons j rest ih =>
    intro acc n
    rw [List.foldl_cons, ih]
    by_cases hj : (deref heap j).can_aggregate
    · rw [if_pos hj, mem_keysOf_updEntry]
      constructor
      · rintro ((h | rfl) | h)
        · exact Or.inl h
        · exact Or.inr ⟨j, List.mem_cons_self _ _, hj, rfl⟩
        · rcases h with ⟨i, hi, hca, hn⟩
          exact Or.inr ⟨i, List.mem_cons_of_mem _ hi, hca, hn⟩
      · rintro (h | ⟨i, hi, hca, hn⟩)
        · exact Or.inl (Or.inl h)
        · rcases List.mem_cons.1 hi with rfl | hi2
          · exact Or.inl (Or.inr hn.symm)
          · exact Or.inr ⟨i, hi2, hca, hn⟩
    · rw [if_neg hj]
      constructor
      · rintro (h | ⟨i, hi, hca, hn⟩)
        · exact Or.inl h
        · exact Or.inr ⟨i, List.mem_cons_of_mem _ hi, hca, hn⟩
      · rintro (h | ⟨i, hi, hca, hn⟩)
        · exact Or.inl h
        · rcases List.mem_cons.1 hi with rfl | hi2
          · exact absurd hca (by simpa using hj)
          · exact Or.inr ⟨i, hi2, hca, hn⟩

theorem foldAgg_lookup_skip (heap : List MetricObj) (g : Nat → Int) :
    ∀ (ids : List Nat) (acc : Dict Int) (n : String),
      (∀ i ∈ ids, (deref heap i).can_aggregate = true →
        (deref heap i).aggregation_name ≠ n) →
      lookup (ids.foldl (fun acc2 i => if (deref heap i).can_aggregate
          then updEntry acc2 (deref heap i).aggregation_name (g i) else acc2) acc) n =
        lookup acc n := by
  intro ids
  induction ids with
  | nil => intro acc n _; rfl
  | cons j rest ih =>
    intro acc n hskip
    rw [List.foldl_cons]
    by_cases hj : (deref heap j).can_aggregate
    · rw [if_pos hj]
      rw [ih _ n (fun i hi => hskip i (List.mem_cons_of_mem _ hi))]
      apply lookup_updEntry_ne
      intro hc
      exact hskip j (List.mem_cons_self _ _) (by simpa using hj) hc.symm
    · rw [if_neg hj]
      exact ih _ n (fun i hi => hskip i (List.mem_cons_of_mem _ hi))

theorem foldAgg_lookup (heap : List MetricObj) (g : Nat → Int) :
    ∀ (ids : List Nat) (acc : Dict Int),
      (∀ i ∈ ids, ∀ j ∈ ids, (deref heap i).can_aggregate = true →
        (deref heap j).can_aggregate = true →
        (deref heap i).aggregation_name = (deref heap j).aggregation_name → i = j) →
      ∀ i ∈ ids, (deref heap i).can_aggregate = true →
        lookup (ids.foldl (fun acc2 i2 => if (deref heap i2).can_aggregate
            then updEntry acc2 (deref heap i2).aggregation_name (g i2) else acc2) acc)
          (deref heap i).aggregation_name = some (g i) := by
  intro ids
  induction ids with
  | nil => intro acc _ i hi; exact absurd hi (List.not_mem_nil i)
  | cons j rest ih =>
    intro acc hinj i hi hca
    rw [List.foldl_cons]
    rcases List.mem_cons.1 hi with rfl | hi2
    · rw [if_pos (by simpa using hca)]
      by_cases hmem : i ∈ rest
      · exact ih _ (fun a ha b hb => hinj a (List.mem_cons_of_mem _ ha) b
          (List.mem_cons_of_mem _ hb)) i hmem hca
      · rw [foldAgg_lookup_skip heap g rest _ _ ?hskip]
        · exact lookup_updEntry_self _ _ _
        case hskip =>
          intro i2 hi2r hca2 hc
          have : i2 = i := hinj i2 (List.mem_cons_of_mem _ hi2r)
            i (List.mem_cons_self _ _) hca2 hca hc
          exact hmem (this ▸ hi2r)
    · by_cases hj : (deref heap j).can_aggregate
      · rw [if_pos hj]
        exact ih _ (fun a ha b hb => hinj a (List.mem_cons_of_mem _ ha) b
          (List.mem_cons_of_mem _ hb)) i hi2 hca
      · rw [if_neg hj]
        exact ih _ (fun a ha b hb => hinj a (List.mem_cons_of_mem _ ha) b
          (List.mem_cons_of_mem _ hb)) i hi2 hca

/-- C9 (amended): `aggregate()` holds an entry for every metric with
`can_aggregate` in `self.metrics = local_metrics + aggregation_targets` —
that is, every aggregating metric in the resolved dependency closure, not
only the requested aggregating metrics — keyed by its `aggregation_name`;
and when aggregation names identify metrics, each entry's value is that
metric's own `get_aggregate` applied to the stacked per-item array
`self.data[metric.name]`. -/
theorem aggregate_entries (heap : List MetricObj) (fuel : Nat) (ms : List Nat)
    (ev : EvaluatorState) (tps : List (InputData × Int)) (fcs : List Int)
    (lm : LocalMetricsModel)
    (hev : mkEvaluator heap fuel ms = some ev)
    (happ : Evaluator.apply heap ev tps fcs = Except.ok lm) :
    (∀ n, n ∈ keysOf (lm.aggregate heap) ↔
      ∃ i ∈ lm.metricsIds, (deref heap i).can_aggregate = true ∧
        (deref heap i).aggregation_name = n) ∧
    ((∀ i ∈ lm.metricsIds, ∀ j ∈ lm.metricsIds,
        (deref heap i).can_aggregate = true → (deref heap j).can_aggregate = true →
        (deref heap i).aggregation_name = (deref heap j).aggregation_name → i = j) →
      ∀ i ∈ lm.metricsIds, (deref heap i).can_aggregate = true →
        lookup (lm.aggregate heap) (deref heap i).aggregation_name =
          some ((deref heap i).getAggregateFn (lookupArr lm.data (deref heap i).name))) := by
  constructor
  · intro n
    rw [LocalMetricsModel.aggregate]
    rw [foldAgg_keys heap
      (fun i => (deref heap i).getAggregateFn (lookupArr lm.data (deref heap i).name))]
    simp
  · intro hinj i hi hca
    rw [LocalMetricsModel.aggregate]
    exact foldAgg_lookup heap
      (fun i2 => (deref heap i2).getAggregateFn (lookupArr lm.data (deref heap i2).name))
      lm.metricsIds [] hinj i hi hca

theorem aggregate_entries_witness :
    lookup (LocalMetricsModel.aggregate aggDepHeap
      { data := [("a", [1]), ("d", [2])]
        target_metrics := ["d"]
        metricsIds := [0, 1]
        itemIds := [0]
        starts := [0] }) "agg_a" = some 1 := by
  have h := aggregate_entries aggDepHeap 3 [1] aggDepEvaluator
    [(⟨0, 0, 0⟩, 0)] [0]
    { data := [("a", [1]), ("d", [2])]
      target_metrics := ["d"]
      metricsIds := [0, 1]
      itemIds := [0]
      starts := [0] } (by decide) rfl
  have h2 := h.2 (by decide) 0 (by decide) (by decide)
  exact h2

/-- C9 as stated is false: requesting only the non-aggregating derived metric
`d` (whose dependency `a` is an aggregating metric) yields an `aggregate()`
mapping that contains an entry for `a` even though the caller requested no
aggregating metric at all. -/
theorem aggregate_entries_counterexample :
    mkEvaluator aggDepHeap 3 [1] = some aggDepEvaluator ∧
    aggDepEvaluator.aggregationTargets = [] ∧
    Evaluator.apply aggDepHeap aggDepEvaluator [(⟨0, 0, 0⟩, 0)] [0] =
      Except.ok
        { data := [("a", [1]), ("d", [2])]
          target_metrics := ["d"]
          metricsIds := [0, 1]
          itemIds := [0]
          starts := [0] } ∧
    LocalMetricsModel.aggregate aggDepHeap
      { data := [("a", [1]), ("d", [2])]
        target_metrics := ["d"]
        metricsIds := [0, 1]
        itemIds := [0]
        starts := [0] } = [("agg_a", 1)] := by
  refine ⟨by decide, by decide, rfl, rfl⟩

/-! ## Tensor algebra -/

theorem ezipList_nil_right {α β γ : Type} (f : α → β → γ) :
    ∀ (as2 : List (Tensor α)), ezipList f as2 [] = []
  | [] => rfl
  | _ :: _ => rfl

theorem ezip_congr {α β γ : Type} {f g : α → β → γ}
    (h : ∀ x y, f x y = g x y) (a : Tensor α) (b : Tensor β) :
    ezip f a b = ezip g a b := by
  have hfg : f = g := funext (fun x => funext (fun y => h x y))
  rw [hfg]

mutual

theorem mapT_comp {α β γ : Type} (f : α → β) (g : β → γ) :
    ∀ (t : Tensor α), mapT g (mapT f t) = mapT (fun x => g (f x)) t
  | .scalar a => rfl
  | .dim ts => congrArg Tensor.dim (mapTList_comp f g ts)

theorem mapTList_comp {α β γ : Type} (f : α → β) (g : β → γ) :
    ∀ (ts : List (Tensor α)), mapTList g (mapTList f ts) = mapTList (fun x => g (f x)) ts
  | [] => rfl
  | t :: ts => by
    show mapT g (mapT f t) :: mapTList g (mapTList f ts) =
      mapT (fun x => g (f x)) t :: mapTList (fun x => g (f x)) ts
    rw [mapT_comp f g t, mapTList_comp f g ts]

end

theorem mapTList_append {α β : Type} (f : α → β) :
    ∀ (l1 l2 : List (Tensor α)), mapTList f (l1 ++ l2) = mapTList f l1 ++ mapTList f l2 := by
  intro l1
  induction l1 with
  | nil => intro l2; rfl
  | cons t ts ih =>
    intro l2
    show mapT f t :: mapTList f (ts ++ l2) = (mapT f t :: mapTList f ts) ++ mapTList f l2
    rw [ih, List.cons_append]

theorem flattenTList_append {α : Type} :
    ∀ (l1 l2 : List (Tensor α)), flattenTList (l1 ++ l2) = flattenTList l1 ++ flattenTList l2 := by
  intro l1
  induction l1 with
  | nil => intro l2; rfl
  | cons t ts ih =>
    intro l2
    show flattenT t ++ flattenTList (ts ++ l2) = (flattenT t ++ flattenTList ts) ++ flattenTList l2
    rw [ih, List.append_assoc]

theorem concatChildren_append {α : Type} :
    ∀ (l1 l2 : List (Tensor α)), concatChildren (l1 ++ l2) =
      concatChildren l1 ++ concatChildren l2 := by
  intro l1
  induction l1 with
  | nil => intro l2; rfl
  | cons b bs ih =>
    intro l2
    show childrenOf b ++ concatChildren (bs ++ l2) =
      (childrenOf b ++ concatChildren bs) ++ concatChildren l2
    rw [ih, List.append_assoc]

theorem slicesAxisList_append {α : Type} (k : Nat) :
    ∀ (l1 l2 : List (Tensor α)), slicesAxisList k (l1 ++ l2) =
      slicesAxisList k l1 ++ slicesAxisList k l2 := by
  intro l1
  induction l1 with
  | nil => intro l2; rfl
  | cons t ts ih =>
    intro l2
    show slicesAxis k t :: slicesAxisList k (ts ++ l2) =
      (slicesAxis k t :: slicesAxisList k ts) ++ slicesAxisList k l2
    rw [ih, List.cons_append]

mutual

theorem mapT_ezip {α β γ δ : Type} (h : γ → δ) (f : α → β → γ) :
    ∀ (a : Tensor α) (b : Tensor β),
      mapT h (ezip f a b) = ezip (fun x y => h (f x y)) a b
  | .scalar _, .scalar _ => rfl
  | .scalar _, .dim _ => rfl
  | .dim _, .scalar _ => rfl
  | .dim as2, .dim bs2 => congrArg Tensor.dim (mapTList_ezipList h f as2 bs2)

theorem mapTList_ezipList {α β γ δ : Type} (h : γ → δ) (f : α → β → γ) :
    ∀ (as2 : List (Tensor α)) (bs2 : List (Tensor β)),
      mapTList h (ezipList f as2 bs2) = ezipList (fun x y => h (f x y)) as2 bs2
  | [], _ => rfl
  | _ :: _, [] => rfl
  | a :: as2, b :: bs2 => by
    show mapT h (ezip f a b) :: mapTList h (ezipList f as2 bs2) =
      ezip (fun x y => h (f x y)) a b :: ezipList (fun x y => h (f x y)) as2 bs2
    rw [mapT_ezip h f a b, mapTList_ezipList h f as2 bs2]

end

mutual

theorem ezip_mapT_left {α β γ δ : Type} (f : γ → β → δ) (g : α → γ) :
    ∀ (a : Tensor α) (b : Tensor β),
      ezip f (mapT g a) b = ezip (fun x y => f (g x) y) a b
  | .scalar _, .scalar _ => rfl
  | .scalar _, .dim _ => rfl
  | .dim _, .scalar _ => rfl
  | .dim as2, .dim bs2 => congrArg Tensor.dim (ezipList_mapTList_left f g as2 bs2)

theorem ezipList_mapTList_left {α β γ δ : Type} (f : γ → β → δ) (g : α → γ) :
    ∀ (as2 : List (Tensor α)) (bs2 : List (Tensor β)),
      ezipList f (mapTList g as2) bs2 = ezipList (fun x y => f (g x) y) as2 bs2
  | [], _ => rfl
  | _ :: _, [] => by
    show ezipList f (mapT g _ :: mapTList g _) [] = []
    rfl
  | a :: as2, b :: bs2 => by
    show ezip f (mapT g a) b :: ezipList f (mapTList g as2) bs2 =
      ezip (fun x y => f (g x) y) a b :: ezipList (fun x y => f (g x) y) as2 bs2
    rw [ezip_mapT_left f g a b, ezipList_mapTList_left f g as2 bs2]

end

mutual

theorem ezip_mapT_right {α β γ δ : Type} (f : α → γ → δ) (g : β → γ) :
    ∀ (a : Tensor α) (b : Tensor β),
      ezip f a (mapT g b) = ezip (fun x y => f x (g y)) a b
  | .scalar _, .scalar _ => rfl
  | .scalar _, .dim _ => rfl
  | .dim _, .scalar _ => rfl
  | .dim as2, .dim bs2 => congrArg Tensor.dim (ezipList_mapTList_right f g as2 bs2)

theorem ezipList_mapTList_right {α β γ δ : Type} (f : α → γ → δ) (g : β → γ) :
    ∀ (as2 : List (Tensor α)) (bs2 : List (Tensor β)),
      ezipList f as2 (mapTList g bs2) = ezipList (fun x y => f x (g y)) as2 bs2
  | [], _ => rfl
  | _ :: _, [] => rfl
  | a :: as2, b :: bs2 => by
    show ezip f a (mapT g b) :: ezipList f as2 (mapTList g bs2) =
      ezip (fun x y => f x (g y)) a b :: ezipList (fun x y => f x (g y)) as2 bs2
    rw [ezip_mapT_right f g a b, ezipList_mapTList_right f g as2 bs2]

end

mutual

theorem ezip_assoc {A B C D E F : Type} (f1 : A → E → D) (g1 : B → C → E)
    (f2 : F → C → D) (g2 : A → B → F)
    (law : ∀ x y z, f1 x (g1 y z) = f2 (g2 x y) z) :
    ∀ (a : Tensor A) (b : Tensor B) (c : Tensor C),
      ezip f1 a (ezip g1 b c) = ezip f2 (ezip g2 a b) c
  | .scalar x, .scalar y, .scalar z => congrArg Tensor.scalar (law x y z)
  | .scalar _, .scalar _, .dim _ => rfl
  | .scalar _, .dim _, .scalar _ => rfl
  | .scalar _, .dim _, .dim _ => rfl
  | .dim _, .scalar _, .scalar _ => rfl
  | .dim as2, .scalar _, .dim _ => congrArg Tensor.dim (ezipList_nil_right f1 as2)
  | .dim as2, .dim _, .scalar _ => congrArg Tensor.dim (ezipList_nil_right f1 as2)
  | .dim as2, .dim bs2, .dim cs2 =>
    congrArg Tensor.dim (ezipList_assoc f1 g1 f2 g2 law as2 bs2 cs2)

theorem ezipList_assoc {A B C D E F : Type} (f1 : A → E → D) (g1 : B → C → E)
    (f2 : F → C → D) (g2 : A → B → F)
    (law : ∀ x y z, f1 x (g1 y z) = f2 (g2 x y) z) :
    ∀ (as2 : List (Tensor A)) (bs2 : List (Tensor B)) (cs2 : List (Tensor C)),
      ezipList f1 as2 (ezipList g1 bs2 cs2) = ezipList f2 (ezipList g2 as2 bs2) cs2
  | [], _, _ => rfl
  | _ :: _, [], _ => by rw [ezipList_nil_right]; rfl
  | a :: as2, b :: bs2, [] => by
    rw [ezipList_nil_right g1 (b :: bs2)]
    show ezipList f1 (a :: as2) [] = ezipList f2 (ezip g2 a b :: ezipList g2 as2 bs2) []
    rw [ezipList_nil_right, ezipList_nil_right]
  | a :: as2, b :: bs2, c :: cs2 => by
    show ezip f1 a (ezip g1 b c) :: ezipList f1 as2 (ezipList g1 bs2 cs2) =
      ezip f2 (ezip g2 a b) c :: ezipList f2 (ezipList g2 as2 bs2) cs2
    rw [ezip_assoc f1 g1 f2 g2 law a b c, ezipList_assoc f1 g1 f2 g2 law as2 bs2 cs2]

end

/-! ## Slices and nan-aware cell reductions -/

theorem slices0_append {α : Type} :
    ∀ (rows1 rows2 : List (Tensor α)), rows1 ≠ [] → rows2 ≠ [] →
      slices0 (rows1 ++ rows2) =
        ezip (fun l1 l2 => l1 ++ l2) (slices0 rows1) (slices0 rows2) := by
  intro rows1
  induction rows1 with
  | nil => intro rows2 h1 _; exact absurd rfl h1
  | cons r rest ih =>
    intro rows2 _ h2
    cases rest with
    | nil =>
      obtain ⟨r2, rest2, rfl⟩ : ∃ r2 rest2, rows2 = r2 :: rest2 := by
        cases rows2 with
        | nil => exact absurd rfl h2
        | cons r2 rest2 => exact ⟨r2, rest2, rfl⟩
      show slices0 (r :: r2 :: rest2) =
        ezip (fun l1 l2 => l1 ++ l2) (mapT (fun a => [a]) r) (slices0 (r2 :: rest2))
      rw [slices0, ezip_mapT_left]
      rfl
    | cons r2 rest2 =>
      have hmid := ih rows2 (List.cons_ne_nil r2 rest2) h2
      show slices0 (r :: r2 :: (rest2 ++ rows2)) =
        ezip (fun l1 l2 => l1 ++ l2) (slices0 (r :: r2 :: rest2)) (slices0 rows2)
      rw [slices0]
      have hmid2 : slices0 (r2 :: (rest2 ++ rows2)) =
          ezip (fun l1 l2 => l1 ++ l2) (slices0 (r2 :: rest2)) (slices0 rows2) := hmid
      rw [hmid2]
      rw [ezip_assoc List.cons (fun l1 l2 => l1 ++ l2) (fun l1 l2 => l1 ++ l2) List.cons
        (fun _ _ _ => rfl) r (slices0 (r2 :: rest2)) (slices0 rows2)]
      rw [slices0]

theorem nsumCell_append :
    ∀ (l1 l2 : List (Option ℚ)), nsumCell (l1 ++ l2) = nsumCell l1 + nsumCell l2 := by
  intro l1 l2
  induction l1 with
  | nil => simp [nsumCell]
  | cons x rest ih =>
    show x.getD 0 + nsumCell (rest ++ l2) = (x.getD 0 + nsumCell rest) + nsumCell l2
    rw [ih, add_assoc]

theorem ncountCell_append :
    ∀ (l1 l2 : List (Option ℚ)), ncountCell (l1 ++ l2) = ncountCell l1 + ncountCell l2 := by
  intro l1 l2
  induction l1 with
  | nil => simp [ncountCell]
  | cons x rest ih =>
    show (if x.isSome then ncountCell (rest ++ l2) + 1 else ncountCell (rest ++ l2)) =
      (if x.isSome then ncountCell rest + 1 else ncountCell rest) + ncountCell l2
    by_cases hx : x.isSome
    · rw [if_pos hx, if_pos hx, ih]
      omega
    · rw [if_neg hx, if_neg hx, ih]

theorem scCell_append :
    ∀ (l1 l2 : List (Option ℚ)), scCell (l1 ++ l2) =
      (fun p1 p2 => (p1.1 + p2.1, p1.2 + p2.2)) (scCell l1) (scCell l2) := by
  intro l1 l2
  show (nsumCell (l1 ++ l2), ncountCell (l1 ++ l2)) = _
  rw [nsumCell_append, ncountCell_append]
  rfl

theorem nmeanCell_eq_div_sc : ∀ (l : List (Option ℚ)), nmeanCell l = divCell (scCell l) :=
  fun _ => rfl

theorem mapSlices0_append {α β : Type} (g : List α → β) (op : β → β → β)
    (hom : ∀ l1 l2, g (l1 ++ l2) = op (g l1) (g l2)) :
    ∀ (rows1 rows2 : List (Tensor α)), rows1 ≠ [] → rows2 ≠ [] →
      mapT g (slices0 (rows1 ++ rows2)) =
        ezip op (mapT g (slices0 rows1)) (mapT g (slices0 rows2)) := by
  intro rows1 rows2 h1 h2
  rw [slices0_append rows1 rows2 h1 h2, mapT_ezip, ezip_mapT_left, ezip_mapT_right]
  exact ezip_congr (fun x y => hom x y) _ _

theorem mapSlices0_fold {α β : Type} (g : List α → β) (op : β → β → β)
    (hom : ∀ l1 l2, g (l1 ++ l2) = op (g l1) (g l2)) :
    ∀ (bs : List (Tensor α)) (rows0 : List (Tensor α)), rows0 ≠ [] →
      (∀ b ∈ bs, ∃ rows, b = Tensor.dim rows ∧ rows ≠ []) →
      bs.foldl (fun t b => ezip op t (mapT g (slicesAxis 0 b))) (mapT g (slices0 rows0))
        = mapT g (slices0 (rows0 ++ concatChildren bs)) := by
  intro bs
  induction bs with
  | nil =>
    intro rows0 _ _
    show mapT g (slices0 rows0) = mapT g (slices0 (rows0 ++ concatChildren []))
    rw [show concatChildren ([] : List (Tensor α)) = [] from rfl, List.append_nil]
  | cons b rest ih =>
    intro rows0 h0 hdim
    obtain ⟨rows, rfl, hrows⟩ := hdim b (List.mem_cons_self b rest)
    rw [List.foldl_cons]
    have hstep : ezip op (mapT g (slices0 rows0))
        (mapT g (slicesAxis 0 (Tensor.dim rows))) = mapT g (slices0 (rows0 ++ rows)) := by
      rw [show slicesAxis 0 (Tensor.dim rows) = slices0 rows from rfl]
      rw [mapSlices0_append g op hom rows0 rows h0 hrows]
    rw [hstep]
    rw [ih (rows0 ++ rows) (by
      intro hc
      rw [List.append_eq_nil] at hc
      exact h0 hc.1) (fun b2 hb2 => hdim b2 (List.mem_cons_of_mem _ hb2))]
    rw [show concatChildren (Tensor.dim rows :: rest) = rows ++ concatChildren rest from rfl]
    rw [List.append_assoc]

theorem mapSlices_succ_concat {α β : Type} (g : List α → β) (k : Nat) :
    ∀ (bs : List (Tensor α)), (∀ b ∈ bs, ∃ rows, b = Tensor.dim rows) →
      concatChildren (bs.map (fun b => mapT g (slicesAxis (k + 1) b)))
        = mapTList g (slicesAxisList k (concatChildren bs)) := by
  intro bs
  induction bs with
  | nil => intro _; rfl
  | cons b rest ih =>
    intro hdim
    obtain ⟨rows, rfl⟩ := hdim b (List.mem_cons_self b rest)
    show childrenOf (mapT g (slicesAxis (k + 1) (Tensor.dim rows))) ++
        concatChildren (rest.map (fun b => mapT g (slicesAxis (k + 1) b)))
      = mapTList g (slicesAxisList k (rows ++ concatChildren rest))
    rw [show slicesAxis (k + 1) (Tensor.dim rows) =
        Tensor.dim (slicesAxisList k rows) from rfl]
    rw [show childrenOf (mapT g (Tensor.dim (slicesAxisList k rows))) =
        mapTList g (slicesAxisList k rows) from rfl]
    rw [ih (fun b2 hb2 => hdim b2 (List.mem_cons_of_mem _ hb2))]
    rw [slicesAxisList_append, mapTList_append]

/-! ## Claims C4 and C5: streaming equals batch -/

theorem sumFold_flat :
    ∀ (bs : List (Tensor (Option ℚ))) (q : ℚ),
      (∀ b ∈ bs, ∃ rows, b = Tensor.dim rows) →
      bs.foldl Sum.step ⟨none, SumState.flat q⟩ =
        ⟨none, SumState.flat (q + nsumCell (flattenTList (concatChildren bs)))⟩ := by
  intro bs
  induction bs with
  | nil =>
    intro q _
    have h0 : nsumCell (flattenTList (concatChildren ([] : List (Tensor (Option ℚ))))) = 0 := rfl
    rw [List.foldl_nil, h0, add_zero]
  | cons b rest ih =>
    intro q hdim
    obtain ⟨rows, rfl⟩ := hdim b (List.mem_cons_self b rest)
    rw [List.foldl_cons]
    rw [show Sum.step ⟨none, SumState.flat q⟩ (Tensor.dim rows) =
      ⟨none, SumState.flat (q + nsumCell (flattenTList rows))⟩ from rfl]
    rw [ih _ (fun b2 hb2 => hdim b2 (List.mem_cons_of_mem _ hb2))]
    rw [show concatChildren (Tensor.dim rows :: rest) = rows ++ concatChildren rest from rfl]
    rw [flattenTList_append, nsumCell_append, add_assoc]

theorem sumFold_acc0 :
    ∀ (bs : List (Tensor (Option ℚ))) (t0 : Tensor ℚ),
      bs.foldl Sum.step ⟨some 0, SumState.acc0 (some t0)⟩ =
        ⟨some 0, SumState.acc0 (some (bs.foldl
          (fun t b => ezip (fun x y => x + y) t (mapT nsumCell (slicesAxis 0 b))) t0))⟩ := by
  intro bs
  induction bs with
  | nil => intro t0; rfl
  | cons b rest ih =>
    intro t0
    rw [List.foldl_cons, List.foldl_cons]
    rw [show Sum.step ⟨some 0, SumState.acc0 (some t0)⟩ b =
      ⟨some 0, SumState.acc0 (some (ezip (fun x y => x + y) t0
        (mapT nsumCell (slicesAxis 0 b))))⟩ from rfl]
    exact ih _

theorem sumFold_parts (k : Nat) :
    ∀ (bs : List (Tensor (Option ℚ))) (l0 : List (Tensor ℚ)),
      bs.foldl Sum.step ⟨some (k + 1), SumState.parts l0⟩ =
        ⟨some (k + 1), SumState.parts
          (l0 ++ bs.map (fun b => mapT nsumCell (slicesAxis (k + 1) b)))⟩ := by
  intro bs
  induction bs with
  | nil => intro l0; rw [List.foldl_nil, List.map_nil, List.append_nil]
  | cons b rest ih =>
    intro l0
    rw [List.foldl_cons]
    rw [show Sum.step ⟨some (k + 1), SumState.parts l0⟩ b =
      ⟨some (k + 1), SumState.parts (l0 ++ [mapT nsumCell (slicesAxis (k + 1) b)])⟩ from rfl]
    rw [ih _, List.map_cons, List.append_assoc]
    rfl

theorem meanFold_flat :
    ∀ (bs : List (Tensor (Option ℚ))) (p : ℚ × Nat),
      (∀ b ∈ bs, ∃ rows, b = Tensor.dim rows) →
      bs.foldl Mean.step ⟨none, MeanState.flat p⟩ =
        ⟨none, MeanState.flat (p.1 + nsumCell (flattenTList (concatChildren bs)),
          p.2 + ncountCell (flattenTList (concatChildren bs)))⟩ := by
  intro bs
  induction bs with
  | nil =>
    intro p _
    have h0 : nsumCell (flattenTList (concatChildren ([] : List (Tensor (Option ℚ))))) = 0 := rfl
    have h1 : ncountCell (flattenTList (concatChildren ([] : List (Tensor (Option ℚ))))) = 0 := rfl
    rw [List.foldl_nil, h0, h1, add_zero, Nat.add_zero]
  | cons b rest ih =>
    intro p hdim
    obtain ⟨rows, rfl⟩ := hdim b (List.mem_cons_self b rest)
    rw [List.foldl_cons]
    rw [show Mean.step ⟨none, MeanState.flat p⟩ (Tensor.dim rows) =
      ⟨none, MeanState.flat (p.1 + nsumCell (flattenTList rows),
        p.2 + ncountCell (flattenTList rows))⟩ from rfl]
    rw [ih _ (fun b2 hb2 => hdim b2 (List.mem_cons_of_mem _ hb2))]
    rw [show concatChildren (Tensor.dim rows :: rest) = rows ++ concatChildren rest from rfl]
    rw [flattenTList_append, nsumCell_append, ncountCell_append]
    rw [add_assoc, Nat.add_assoc]

theorem meanFold_acc0 :
    ∀ (bs : List (Tensor (Option ℚ))) (t0 : Tensor (ℚ × Nat)),
      bs.foldl Mean.step ⟨some 0, MeanState.acc0 (some t0)⟩ =
        ⟨some 0, MeanState.acc0 (some (bs.foldl
          (fun t b => ezip (fun p1 p2 => (p1.1 + p2.1, p1.2 + p2.2)) t
            (mapT scCell (slicesAxis 0 b))) t0))⟩ := by
  intro bs
  induction bs with
  | nil => intro t0; rfl
  | cons b rest ih =>
    intro t0
    rw [List.foldl_cons, List.foldl_cons]
    rw [show Mean.step ⟨some 0, MeanState.acc0 (some t0)⟩ b =
      ⟨some 0, MeanState.acc0 (some (ezip (fun p1 p2 => (p1.1 + p2.1, p1.2 + p2.2)) t0
        (mapT scCell (slicesAxis 0 b))))⟩ from rfl]
    exact ih _

theorem meanFold_parts (k : Nat) :
    ∀ (bs : List (Tensor (Option ℚ))) (l0 : List (Tensor (ℚ × Nat))),
      bs.foldl Mean.step ⟨some (k + 1), MeanState.parts l0⟩ =
        ⟨some (k + 1), MeanState.parts
          (l0 ++ bs.map (fun b => mapT scCell (slicesAxis (k + 1) b)))⟩ := by
  intro bs
  induction bs with
  | nil => intro l0; rw [List.foldl_nil, List.map_nil, List.append_nil]
  | cons b rest ih =>
    intro l0
    rw [List.foldl_cons]
    rw [show Mean.step ⟨some (k + 1), MeanState.parts l0⟩ b =
      ⟨some (k + 1), MeanState.parts (l0 ++ [mapT scCell (slicesAxis (k + 1) b)])⟩ from rfl]
    rw [ih _, List.map_cons, List.append_assoc]
    rfl

/-- C5: streaming `Sum` equals the nan-aware batch sum of the concatenated
value stream.  For every nonempty batch sequence of identical shape off the
first (concatenation) axis, `Sum(axis=a).get()` after streaming all batches
equals `np.nansum` of the concatenation of the batches along the chosen
axis — the full flattened total when the axis is "none".  (The aggregation
module is modelled from the spec; its tests pin the same values.) -/
theorem Sum_streaming_eq_nansum_concat (a : Option Nat) (s : List Nat)
    (bs : List (Tensor (Option ℚ))) (hne : bs ≠ [])
    (hdim : ∀ b ∈ bs, ∃ rows, b = Tensor.dim rows ∧ rows ≠ [] ∧
      hasShapeList rows s = true) :
    runSum a bs =
      match a with
      | none => Tensor.scalar (nsumCell (flattenT (concatT bs)))
      | some k => nansumAxis k (concatT bs) := by
  have hdim2 : ∀ b ∈ bs, ∃ rows, b = Tensor.dim rows := by
    intro b hb
    rcases hdim b hb with ⟨rows, h1, -, -⟩
    exact ⟨rows, h1⟩
  cases a with
  | none =>
    rw [runSum, show Sum.new none = ⟨none, SumState.flat 0⟩ from rfl]
    rw [sumFold_flat bs 0 hdim2]
    show Tensor.scalar (0 + nsumCell (flattenTList (concatChildren bs))) = _
    rw [zero_add]
    rfl
  | some k =>
    cases k with
    | zero =>
      obtain ⟨b0, rest, rfl⟩ : ∃ b0 rest, bs = b0 :: rest := by
        cases bs with
        | nil => exact absurd rfl hne
        | cons b0 rest => exact ⟨b0, rest, rfl⟩
      obtain ⟨rows0, rfl, hrows0, -⟩ := hdim b0 (List.mem_cons_self b0 rest)
      rw [runSum, show Sum.new (some 0) = ⟨some 0, SumState.acc0 none⟩ from rfl,
        List.foldl_cons]
      rw [show Sum.step ⟨some 0, SumState.acc0 none⟩ (Tensor.dim rows0) =
        ⟨some 0, SumState.acc0 (some (mapT nsumCell (slices0 rows0)))⟩ from rfl]
      rw [sumFold_acc0 rest (mapT nsumCell (slices0 rows0))]
      show rest.foldl
          (fun t b => ezip (fun x y => x + y) t (mapT nsumCell (slicesAxis 0 b)))
          (mapT nsumCell (slices0 rows0)) = _
      rw [mapSlices0_fold nsumCell (fun x y => x + y) nsumCell_append rest rows0 hrows0
        (fun b2 hb2 => by
          rcases hdim b2 (List.mem_cons_of_mem _ hb2) with ⟨rows2, h1, h2, -⟩
          exact ⟨rows2, h1, h2⟩)]
      rfl
    | succ k =>
      rw [runSum, show Sum.new (some (k + 1)) = ⟨some (k + 1), SumState.parts []⟩ from rfl]
      rw [sumFold_parts k bs []]
      show Tensor.dim (concatChildren
        (bs.map (fun b => mapT nsumCell (slicesAxis (k + 1) b)))) = _
      rw [mapSlices_succ_concat nsumCell k bs hdim2]
      rfl

theorem Sum_streaming_witness :
    runSum (some 0)
      [Tensor.dim [Tensor.scalar (some 1), Tensor.scalar none],
        Tensor.dim [Tensor.scalar (some 2)]] =
      nansumAxis 0 (concatT
        [Tensor.dim [Tensor.scalar (some 1), Tensor.scalar none],
          Tensor.dim [Tensor.scalar (some 2)]]) := by
  have h := Sum_streaming_eq_nansum_concat (some 0) []
    [Tensor.dim [Tensor.scalar (some 1), Tensor.scalar none],
      Tensor.dim [Tensor.scalar (some 2)]]
    (List.cons_ne_nil _ _) ?hd
  · exact h
  case hd =>
    intro b hb
    rcases List.mem_cons.1 hb with rfl | hb2
    · exact ⟨[Tensor.scalar (some 1), Tensor.scalar none], rfl,
        List.cons_ne_nil _ _, rfl⟩
    · rcases List.mem_cons.1 hb2 with rfl | hb3
      · exact ⟨[Tensor.scalar (some 2)], rfl, List.cons_ne_nil _ _, rfl⟩
      · exact absurd hb3 (List.not_mem_nil b)

/-- C4: streaming `Mean` equals the nan-aware batch mean of the concatenated
value stream, and an output cell with zero non-missing contributions across
the whole stream is the missing sentinel — not zero and not an exception.
(The aggregation module is modelled from the spec; its tests pin the same
values.) -/
theorem Mean_streaming_eq_nanmean_concat (a : Option Nat) (s : List Nat)
    (bs : List (Tensor (Option ℚ))) (hne : bs ≠ [])
    (hdim : ∀ b ∈ bs, ∃ rows, b = Tensor.dim rows ∧ rows ≠ [] ∧
      hasShapeList rows s = true) :
    (runMean a bs =
      match a with
      | none => Tensor.scalar (nmeanCell (flattenT (concatT bs)))
      | some k => nanmeanAxis k (concatT bs)) ∧
    (∀ l : List (Option ℚ), ncountCell l = 0 →
      nmeanCell l = none ∧ nmeanCell l ≠ some 0) := by
  have hdim2 : ∀ b ∈ bs, ∃ rows, b = Tensor.dim rows := by
    intro b hb
    rcases hdim b hb with ⟨rows, h1, -, -⟩
    exact ⟨rows, h1⟩
  have hdiv : (fun l => divCell (scCell l)) = nmeanCell :=
    funext (fun l => (nmeanCell_eq_div_sc l).symm)
  constructor
  · cases a with
    | none =>
      rw [runMean, show Mean.new none = ⟨none, MeanState.flat (0, 0)⟩ from rfl]
      rw [meanFold_flat bs (0, 0) hdim2]
      show Tensor.scalar (divCell (0 + nsumCell (flattenTList (concatChildren bs)),
        0 + ncountCell (flattenTList (concatChildren bs)))) = _
      rw [zero_add, Nat.zero_add]
      rfl
    | some k =>
      cases k with
      | zero =>
        obtain ⟨b0, rest, rfl⟩ : ∃ b0 rest, bs = b0 :: rest := by
          cases bs with
          | nil => exact absurd rfl hne
          | cons b0 rest => exact ⟨b0, rest, rfl⟩
        obtain ⟨rows0, rfl, hrows0, -⟩ := hdim b0 (List.mem_cons_self b0 rest)
        rw [runMean, show Mean.new (some 0) = ⟨some 0, MeanState.acc0 none⟩ from rfl,
          List.foldl_cons]
        rw [show Mean.step ⟨some 0, MeanState.acc0 none⟩ (Tensor.dim rows0) =
          ⟨some 0, MeanState.acc0 (some (mapT scCell (slices0 rows0)))⟩ from rfl]
        rw [meanFold_acc0 rest (mapT scCell (slices0 rows0))]
        show mapT divCell (rest.foldl
            (fun t b => ezip (fun p1 p2 => (p1.1 + p2.1, p1.2 + p2.2)) t
              (mapT scCell (slicesAxis 0 b)))
            (mapT scCell (slices0 rows0))) = _
        rw [mapSlices0_fold scCell (fun p1 p2 => (p1.1 + p2.1, p1.2 + p2.2))
          scCell_append rest rows0 hrows0
          (fun b2 hb2 => by
            rcases hdim b2 (List.mem_cons_of_mem _ hb2) with ⟨rows2, h1, h2, -⟩
            exact ⟨rows2, h1, h2⟩)]
        rw [mapT_comp scCell divCell, hdiv]
        rfl
      | succ k =>
        rw [runMean, show Mean.new (some (k + 1)) =
          ⟨some (k + 1), MeanState.parts []⟩ from rfl]
        rw [meanFold_parts k bs []]
        show mapT divCell (Tensor.dim (concatChildren
          (bs.map (fun b => mapT scCell (slicesAxis (k + 1) b))))) = _
        rw [mapSlices_succ_concat scCell k bs hdim2]
        show Tensor.dim (mapTList divCell (mapTList scCell
          (slicesAxisList k (concatChildren bs)))) = _
        rw [mapTList_comp scCell divCell, hdiv]
        rfl
  · intro l hl
    constructor
    · rw [nmeanCell, if_pos hl]
    · rw [nmeanCell, if_pos hl]
      simp

theorem Mean_streaming_witness :
    runMean (some 0)
      [Tensor.dim [Tensor.scalar none], Tensor.dim [Tensor.scalar (some 2)]] =
      nanmeanAxis 0 (concatT
        [Tensor.dim [Tensor.scalar none], Tensor.dim [Tensor.scalar (some 2)]]) := by
  have h := Mean_streaming_eq_nanmean_concat (some 0) []
    [Tensor.dim [Tensor.scalar none], Tensor.dim [Tensor.scalar (some 2)]]
    (List.cons_ne_nil _ _) ?hd
  · exact h.1
  case hd =>
    intro b hb
    rcases List.mem_cons.1 hb with rfl | hb2
    · exact ⟨[Tensor.scalar none], rfl, List.cons_ne_nil _ _, rfl⟩
    · rcases List.mem_cons.1 hb2 with rfl | hb3
      · exact ⟨[Tensor.scalar (some 2)], rfl, List.cons_ne_nil _ _, rfl⟩
      · exact absurd hb3 (List.not_mem_nil b)

/-- C2: the code contains no cycle check: on a self-dependent metric,
`resolve` recurses until the interpreter's recursion limit is exhausted
(`RecursionError`, modelled as `none` at every fuel bound); no configuration
error is ever produced. -/
theorem resolve_dependencies_selfDep_recursionError (fuel : Nat) :
    resolve_dependencies selfDepHeap fuel [0] = none := by
  rw [resolve_dependencies]
  simp [mergeClosures, resolveObj_selfDep]

end GluonTS
